import Mathlib

/-!
Shallow embedding of the multi-round matching engine (`app/matching.py`)
and the composite pairwise scorer (`app/scoring.py`) of the dosido
repository, together with theorems settling the specification claims
about them.

Modelling conventions:
* Python strings are `String`; Python compares strings by code point,
  exactly as Lean's `String` order does.
* Every finite value `match_score` can produce is an exact integer (the
  LLM scores and the deterministic bonuses are integers, and each signal
  boost adds the exact float 5.0), so scores are modelled in `ℤ`.  The
  `float("-inf")` "forbidden" sentinel is `Option.none`; an eligible
  score `s` is `some s`.  The only non-integer arithmetic in the engine
  is the 0.95 lookahead discount on graph edge weights, modelled exactly
  in `ℚ` (0.95 = 19/20), with an order-isomorphic integer-weight variant
  proven equal to it for concrete evaluation.
* Python dicts are association lists looked up by first matching key;
  Python sets are lists used only through membership.
* Only the `Attendee` fields the engine reads are modelled; the string
  enumerations of `app/models.py` (`Role`, `Lane`, `Arrangement`,
  `AttendeeSource`) are `str` subclasses compared by their string value,
  so they are modelled as `String`.
-/

/-- The fields of `app.models.Attendee` read by the matching engine and the
scorer.  Enumeration-typed fields are the underlying strings. -/
structure Attendee where
  id : String
  location : String := ""
  lane : String := "flexible"
  role : String := "engineering"
  role_needed : String := "engineering"
  climate_areas : List String := []
  top_climate_area : String := ""
  arrangement : String := "remote-open"
  source : String := "application"
deriving DecidableEq

/-- Model of `app.models.Pairing`.  `composite_score` is the raw value assigned by the
solver — in the source a float that could in principle be `-inf`, hence an
`Option ℤ` here (every finite score the engine produces is an integer). -/
structure Pairing where
  table_number : ℕ
  attendee_a : String
  attendee_b : String
  composite_score : Option ℤ
deriving DecidableEq

/-- Code-point lexicographic order on character lists: exactly how Python
compares `str` values (and how Lean's `String.lt` is defined), written as a
structurally recursive `Bool` so the kernel can evaluate it. -/
def charListLt : List Char → List Char → Bool
  | [], [] => false
  | [], _ :: _ => true
  | _ :: _, [] => false
  | c :: cs, d :: ds =>
      if c.toNat < d.toNat then true
      else if d.toNat < c.toNat then false
      else charListLt cs ds

/-- Python `s < t` on strings. -/
def strLt (s t : String) : Bool := charListLt s.data t.data

/-- ASCII lowercasing of one character (Python `str.lower` restricted to the
ASCII range, which is all the engine's location strings use). -/
def charLower (c : Char) : Char :=
  if 65 ≤ c.toNat ∧ c.toNat ≤ 90 then Char.ofNat (c.toNat + 32) else c

/-- Python `s.lower()` (ASCII range). -/
def pyLower (s : String) : String := String.mk (s.data.map charLower)

/-- Model of `scoring.make_pair_key`: the two ids sorted ascending, joined with ":". -/
def make_pair_key (id_a id_b : String) : String :=
  if strLt id_b id_a then id_b ++ ":" ++ id_a else id_a ++ ":" ++ id_b

/-- Python `d.get(k, dflt)` on a dict modelled as an association list. -/
def dictGet (d : List (String × α)) (k : String) (dflt : α) : α :=
  match d.find? (fun kv => decide (kv.1 = k)) with
  | some kv => kv.2
  | none => dflt

/-- A compatibility-matrix entry is a Python dict holding an optional integer
`"score"` field (plus text fields irrelevant to the engine); an entry whose
dict lacks the `"score"` key is `none`.  `lookupEntry` is
`compatibility_matrix.get(pair_key)`: `none` when no entry exists at all. -/
def lookupEntry (m : List (String × Option ℤ)) (k : String) : Option (Option ℤ) :=
  (m.find? (fun kv => decide (kv.1 = k))).map (fun kv => kv.2)

/-- Model of `scoring.match_score` lines 60-66: the role-complementarity bonus.  Both
+15 increments sit inside the `if a.role != b.role:` guard. -/
def role_bonus (a b : Attendee) : ℤ :=
  if a.role ≠ b.role then
    (if a.role_needed = b.role then 15 else 0) +
      (if b.role_needed = a.role then 15 else 0)
  else 0

/-- Model of `scoring.match_score` lines 69-73: idea-holder paired with joiner. -/
def lane_bonus (a b : Attendee) : ℤ :=
  if (a.lane = "idea" ∧ b.lane = "joiner") ∨ (a.lane = "joiner" ∧ b.lane = "idea")
  then 10 else 0

/-- Python `len(set(a.climate_areas) & set(b.climate_areas))`. -/
def climate_overlap (a b : Attendee) : ℕ :=
  (a.climate_areas.toFinset ∩ b.climate_areas.toFinset).card

/-- Python `10 if (a.top_climate_area and a.top_climate_area == b.top_climate_area) else 0`
(`and` on a string is a non-emptiness test). -/
def top_match (a b : Attendee) : ℤ :=
  if a.top_climate_area ≠ "" ∧ a.top_climate_area = b.top_climate_area then 10 else 0

/-- Model of `scoring.match_score` line 78: `(climate_overlap * 5) + top_match`. -/
def climate_bonus (a b : Attendee) : ℤ :=
  (climate_overlap a b : ℤ) * 5 + top_match a b

/-- Model of `scoring._signal_boost`: +5 for every person the source signalled
interest in whose precomputed score against the candidate exceeds 70. -/
def signal_boost (from_id candidate_id : String)
    (mutual_signals : List (String × List String))
    (compatibility_scores : List (String × ℤ)) : ℤ :=
  (dictGet mutual_signals from_id []).foldl
    (fun boost interest_id =>
      if dictGet compatibility_scores (make_pair_key candidate_id interest_id) 0 > 70
      then boost + 5 else boost)
    0

/-- Model of `scoring.match_score` lines 55-56: the LLM score of a pair —
`pair_data.get("score", 0) if pair_data else 0` with
`pair_data = compatibility_matrix.get(pair_key, {})`; 0 when there is no
entry, or the entry's dict has no `"score"` field (or is empty/falsy). -/
def llm_score_of (compatibility_matrix : List (String × Option ℤ)) (pair_key : String) : ℤ :=
  match lookupEntry compatibility_matrix pair_key with
  | some (some s) => s
  | _ => 0

/-- Model of `scoring.match_score` lines 85-92: the summed two-direction signal boost;
`if mutual_signals and compatibility_scores:` is Python truthiness, i.e.
"present and non-empty" for both dicts. -/
def signal_boost_total (a b : Attendee)
    (mutual_signals : Option (List (String × List String)))
    (compatibility_scores : Option (List (String × ℤ))) : ℤ :=
  match mutual_signals, compatibility_scores with
  | some sig, some sc =>
      if !sig.isEmpty && !sc.isEmpty then
        signal_boost a.id b.id sig sc + signal_boost b.id a.id sig sc
      else 0
  | _, _ => 0

/-- Model of `scoring.match_score`.  `none` models `float("-inf")` (hard-constraint
violation).  The optional dict parameters model Python `None` as
`Option.none`. -/
def match_score (a b : Attendee) (compatibility_matrix : List (String × Option ℤ))
    (pairing_history : List String)
    (mutual_signals : Option (List (String × List String)))
    (compatibility_scores : Option (List (String × ℤ))) : Option ℤ :=
  let pair_key := make_pair_key a.id b.id
  if pair_key ∈ pairing_history then none
  else if a.arrangement = "colocated" ∧ b.arrangement = "colocated" ∧
      a.location ≠ "" ∧ b.location ≠ "" ∧
      pyLower a.location ≠ pyLower b.location then none
  else if llm_score_of compatibility_matrix pair_key = 0 ∧
      lookupEntry compatibility_matrix pair_key = none then
    some ((role_bonus a b + lane_bonus a b + climate_bonus a b) * 2)
  else
    some (llm_score_of compatibility_matrix pair_key + role_bonus a b + lane_bonus a b +
      climate_bonus a b + signal_boost_total a b mutual_signals compatibility_scores)

/-! ### The solver (`app/matching.py`) -/

/-- Stable insertion sort by a boolean (total, non-strict) `le`; models
Python's stable `list.sort()` / `sorted()`. -/
def insertSorted (le : α → α → Bool) (x : α) : List α → List α
  | [] => [x]
  | y :: ys => if le x y then x :: y :: ys else y :: insertSorted le x ys

/-- Stable insertion sort (see `insertSorted`). -/
def insertionSort (le : α → α → Bool) : List α → List α
  | [] => []
  | x :: xs => insertSorted le x (insertionSort le xs)

/-- Python tuple comparison `(count, is_walk_up, id) <= ...` with
`False < True` and string comparison by code point. -/
def candLE (c d : ℤ × Bool × String) : Bool :=
  decide (c.1 < d.1) ||
    (decide (c.1 = d.1) &&
      ((!c.2.1 && d.2.1) ||
        (decide (c.2.1 = d.2.1) &&
          (strLt c.2.2 d.2.2 || decide (c.2.2 = d.2.2)))))

/-- Model of `matching._choose_pit_stop` lines 193-198: the ranking tuple
`(pit_stop_counts.get(attendee.id, 0), attendee.source == "walk-up",
attendee.id)` of one candidate. -/
def pit_stop_key (pit_stop_counts : List (String × ℤ)) (a : Attendee) :
    ℤ × Bool × String :=
  (dictGet pit_stop_counts a.id 0, decide (a.source = "walk-up"), a.id)

/-- Model of `matching._choose_pit_stop`: sort candidates ascending by
`(pit_stop_count, is_walk_up, id)` and take the first; `""` is returned only
for an empty pool (where the source would raise `IndexError`; the solver
only calls this on odd, hence non-empty, pools). -/
def choose_pit_stop (pool : List Attendee) (pit_stop_counts : List (String × ℤ)) : String :=
  let candidates := pool.map (pit_stop_key pit_stop_counts)
  match insertionSort candLE candidates with
  | [] => ""
  | c :: _ => c.2.2

/-- All unordered pairs of a list, in the order of the source's nested loop
`for i, id_a in enumerate(ids): for id_b in ids[i + 1:]`. -/
def allPairs : List α → List (α × α)
  | [] => []
  | x :: xs => xs.map (fun y => (x, y)) ++ allPairs xs

/-- Python `attendee_map = {a.id: a for a in pool}` then `list(attendee_map.values())`:
one attendee per id.  (Duplicate ids in the pool are undefined behaviour per
the spec; this model keeps one occurrence, and on pools with distinct ids it
is the identity.) -/
def dedupById : List Attendee → List Attendee
  | [] => []
  | a :: rest =>
      let tail := dedupById rest
      if a.id ∈ tail.map Attendee.id then tail else a :: tail

/-- Model of `matching.solve_round` lines 41-44: pre-extract `{key: data["score"]}`
from entries whose dict has a `"score"` field. -/
def extract_scores (m : List (String × Option ℤ)) : List (String × ℤ) :=
  m.filterMap (fun kv => kv.2.map (fun s => (kv.1, s)))

/-- Model of `matching._solve_single_round` lines 146-153: the stored graph weight for
an edge whose composite score is `w` — the 0.95 lookahead discount when more
than 3 rounds remain, then the clamp `max(weight, 0)`. -/
def edge_weight (rounds_remaining : ℤ) (w : ℤ) : ℚ :=
  max (if 3 < rounds_remaining then (w : ℚ) * (19 / 20) else (w : ℚ)) 0

/-- The value of `edge_weight` rescaled by the constant factor 20, which keeps weights in
`ℤ` so that concrete runs reduce in the kernel; `edge_weightZ_cast` proves
`(edge_weightZ rr w : ℚ) = 20 * edge_weight rr w`, and the rescaling does not
change the matcher's choices (`max_weight_matching_congr`). -/
def edge_weightZ (rounds_remaining : ℤ) (w : ℤ) : ℤ :=
  max (if 3 < rounds_remaining then 19 * w else 20 * w) 0

/-- True iff no id occurs twice. -/
def nodupB : List String → Bool
  | [] => true
  | x :: xs => !(decide (x ∈ xs)) && nodupB xs

/-- The two endpoints of every edge of `c`, in order. -/
def pairEndpoints (c : List (Attendee × Attendee)) : List String :=
  c.flatMap (fun ab => [ab.1.id, ab.2.id])

/-- A set of edges is a matching when no attendee id is used twice. -/
def isMatchingB (c : List (Attendee × Attendee)) : Bool :=
  nodupB (pairEndpoints c)

/-- Total weight of a candidate matching under the weight function `wt`. -/
def wSum [AddCommMonoid W] (wt : Attendee × Attendee → W)
    (c : List (Attendee × Attendee)) : W :=
  c.foldl (fun s ab => s + wt ab) 0

/-- Strict comparison, candidate `c` beats candidate `d`: larger cardinality, or equal
cardinality and strictly larger total weight. -/
def betterB [AddCommMonoid W] [LinearOrder W] (wt : Attendee × Attendee → W)
    (c d : List (Attendee × Attendee)) : Bool :=
  decide (d.length < c.length) ||
    (decide (c.length = d.length) && decide (wSum wt d < wSum wt c))

/-- Modelled from the spec: the external library call
`nx.max_weight_matching(graph, maxcardinality=True)` (networkx — not part of
this repository).  Per spec §4.4 step 5 and §9 it returns a matching of the
graph that maximizes matched-pair count first and total weight second; the
spec leaves the tie-break among optimal matchings and the orientation in
which each pair is reported unspecified, so this model resolves both
deterministically: candidates are enumerated as sublists of the edge list
and the first optimum is kept, each edge reported in the orientation in
which it was inserted into the graph. -/
def max_weight_matching [AddCommMonoid W] [LinearOrder W]
    (pairs : List (Attendee × Attendee)) (wt : Attendee × Attendee → W) :
    List (Attendee × Attendee) :=
  ((pairs.sublists).filter isMatchingB).foldl
    (fun acc c => if betterB wt c acc then c else acc) []

/-- Python tuple comparison `(id_a, id_b) <= ...` used by `sorted(matching)`. -/
def pairTupleLE (x y : String × String) : Bool :=
  strLt x.1 y.1 || (decide (x.1 = y.1) && (strLt x.2 y.2 || decide (x.2 = y.2)))

/-- Model of `matching._solve_single_round` lines 158-176: sort the matched pairs as
the tuples the matcher reported, assign table numbers `1..k` in that order,
and recompute each pair's unclamped composite score. -/
def pairings_of_matching (matching : List (Attendee × Attendee))
    (compatibility_matrix : List (String × Option ℤ)) (pairing_history : List String)
    (mutual_signals : Option (List (String × List String)))
    (compatibility_scores : List (String × ℤ)) : List Pairing :=
  let sortedPairs :=
    insertionSort (fun x y => pairTupleLE (x.1.id, x.2.id) (y.1.id, y.2.id)) matching
  sortedPairs.enum.map (fun ie =>
    { table_number := ie.1 + 1
      attendee_a := ie.2.1.id
      attendee_b := ie.2.2.id
      composite_score := match_score ie.2.1 ie.2.2 compatibility_matrix
        pairing_history mutual_signals (some compatibility_scores) })

/-- The edges of the compatibility graph: every unordered pair of the working
pool whose composite score is not forbidden (lines 128-144; a forbidden pair
gets no edge). -/
def graph_pairs (attendees : List Attendee)
    (compatibility_matrix : List (String × Option ℤ)) (pairing_history : List String)
    (mutual_signals : Option (List (String × List String)))
    (compatibility_scores : List (String × ℤ)) : List (Attendee × Attendee) :=
  (allPairs attendees).filter (fun ab =>
    (match_score ab.1 ab.2 compatibility_matrix pairing_history mutual_signals
      (some compatibility_scores)).isSome)

/-- The weight attached to an eligible edge (its composite score fed through
`edge_weight`). -/
def pair_weight (rounds_remaining : ℤ)
    (compatibility_matrix : List (String × Option ℤ)) (pairing_history : List String)
    (mutual_signals : Option (List (String × List String)))
    (compatibility_scores : List (String × ℤ)) (ab : Attendee × Attendee) : ℚ :=
  edge_weight rounds_remaining
    ((match_score ab.1 ab.2 compatibility_matrix pairing_history mutual_signals
      (some compatibility_scores)).getD 0)

/-- Variant of `pair_weight` with the 20-rescaled integer weights (see `edge_weightZ`). -/
def pair_weightZ (rounds_remaining : ℤ)
    (compatibility_matrix : List (String × Option ℤ)) (pairing_history : List String)
    (mutual_signals : Option (List (String × List String)))
    (compatibility_scores : List (String × ℤ)) (ab : Attendee × Attendee) : ℤ :=
  edge_weightZ rounds_remaining
    ((match_score ab.1 ab.2 compatibility_matrix pairing_history mutual_signals
      (some compatibility_scores)).getD 0)

/-- Model of `matching._solve_single_round`. -/
def solve_single_round (active_pool : List Attendee)
    (compatibility_matrix : List (String × Option ℤ)) (pairing_history : List String)
    (rounds_remaining : ℤ) (pit_stop_counts : List (String × ℤ))
    (mutual_signals : Option (List (String × List String)))
    (compatibility_scores : List (String × ℤ)) : List Pairing × Option String :=
  let pool := active_pool
  let pit_stop_id : Option String :=
    if pool.length % 2 = 1 then some (choose_pit_stop pool pit_stop_counts) else none
  let pool2 := match pit_stop_id with
    | some pid => pool.filter (fun a => decide (a.id ≠ pid))
    | none => pool
  if pool2.length < 2 then ([], pit_stop_id)
  else
    let attendees := dedupById pool2
    let pairs := graph_pairs attendees compatibility_matrix pairing_history
      mutual_signals compatibility_scores
    let matching := max_weight_matching pairs
      (pair_weight rounds_remaining compatibility_matrix pairing_history
        mutual_signals compatibility_scores)
    (pairings_of_matching matching compatibility_matrix pairing_history
      mutual_signals compatibility_scores, pit_stop_id)

/-- Variant of `solve_single_round` with the 20-rescaled integer weights; proven equal
to `solve_single_round` below. -/
def solve_single_roundZ (active_pool : List Attendee)
    (compatibility_matrix : List (String × Option ℤ)) (pairing_history : List String)
    (rounds_remaining : ℤ) (pit_stop_counts : List (String × ℤ))
    (mutual_signals : Option (List (String × List String)))
    (compatibility_scores : List (String × ℤ)) : List Pairing × Option String :=
  let pool := active_pool
  let pit_stop_id : Option String :=
    if pool.length % 2 = 1 then some (choose_pit_stop pool pit_stop_counts) else none
  let pool2 := match pit_stop_id with
    | some pid => pool.filter (fun a => decide (a.id ≠ pid))
    | none => pool
  if pool2.length < 2 then ([], pit_stop_id)
  else
    let attendees := dedupById pool2
    let pairs := graph_pairs attendees compatibility_matrix pairing_history
      mutual_signals compatibility_scores
    let matching := max_weight_matching pairs
      (pair_weightZ rounds_remaining compatibility_matrix pairing_history
        mutual_signals compatibility_scores)
    (pairings_of_matching matching compatibility_matrix pairing_history
      mutual_signals compatibility_scores, pit_stop_id)

/-- Model of `matching._solve_remaining_rounds` lines 92-94: fold this round's pair
keys into the simulated history (`set.add` is modelled by cons; only
membership is ever read). -/
def update_history (pairing_history : List String) (pairings : List Pairing) : List String :=
  pairings.foldl (fun h p => make_pair_key p.attendee_a p.attendee_b :: h) pairing_history

/-- Model of `matching._solve_remaining_rounds` lines 96-97: `if pit_stop_id:` — Python
truthiness, so `None` and `""` both skip the increment. -/
def update_counts (pit_stop_counts : List (String × ℤ)) (pit_stop_id : Option String) :
    List (String × ℤ) :=
  match pit_stop_id with
  | some pid =>
      if pid ≠ "" then (pid, dictGet pit_stop_counts pid 0 + 1) :: pit_stop_counts
      else pit_stop_counts
  | none => pit_stop_counts

/-- Model of `matching._solve_remaining_rounds`: the lookahead loop.  The first
argument counts the remaining iterations of `range(rounds_remaining)`; the
second is the `rounds_remaining - round_idx` value passed to the single-round
solver. -/
def solve_remaining_rounds (active_pool : List Attendee)
    (compatibility_matrix : List (String × Option ℤ))
    (mutual_signals : Option (List (String × List String)))
    (compatibility_scores : List (String × ℤ)) :
    ℕ → ℤ → List String → List (String × ℤ) → List (List Pairing × Option String)
  | 0, _, _, _ => []
  | n + 1, rr, hist, counts =>
      let result := solve_single_round active_pool compatibility_matrix hist rr
        counts mutual_signals compatibility_scores
      result :: solve_remaining_rounds active_pool compatibility_matrix
        mutual_signals compatibility_scores n (rr - 1)
        (update_history hist result.1) (update_counts counts result.2)

/-- Variant of `solve_remaining_rounds` built on `solve_single_roundZ`. -/
def solve_remaining_roundsZ (active_pool : List Attendee)
    (compatibility_matrix : List (String × Option ℤ))
    (mutual_signals : Option (List (String × List String)))
    (compatibility_scores : List (String × ℤ)) :
    ℕ → ℤ → List String → List (String × ℤ) → List (List Pairing × Option String)
  | 0, _, _, _ => []
  | n + 1, rr, hist, counts =>
      let result := solve_single_roundZ active_pool compatibility_matrix hist rr
        counts mutual_signals compatibility_scores
      result :: solve_remaining_roundsZ active_pool compatibility_matrix
        mutual_signals compatibility_scores n (rr - 1)
        (update_history hist result.1) (update_counts counts result.2)

/-- Model of `matching.solve_round`: the engine's entry point.  `rounds_remaining` is
an `ℤ` (Python ints may be negative); `range(rounds_remaining)` iterates
`rounds_remaining.toNat` times. -/
def solve_round (active_pool : List Attendee)
    (compatibility_matrix : List (String × Option ℤ)) (pairing_history : List String)
    (rounds_remaining : ℤ) (pit_stop_counts : List (String × ℤ))
    (mutual_signals : Option (List (String × List String))) :
    List Pairing × Option String :=
  if active_pool.length < 2 then ([], none)
  else
    let compatibility_scores := extract_scores compatibility_matrix
    let schedule := solve_remaining_rounds active_pool compatibility_matrix
      mutual_signals compatibility_scores rounds_remaining.toNat rounds_remaining
      pairing_history pit_stop_counts
    match schedule with
    | [] => ([], none)
    | s :: _ => s

/-- Variant of `solve_round` built on the integer-weight solver; proven equal to
`solve_round` below and used to evaluate concrete runs in the kernel. -/
def solve_roundZ (active_pool : List Attendee)
    (compatibility_matrix : List (String × Option ℤ)) (pairing_history : List String)
    (rounds_remaining : ℤ) (pit_stop_counts : List (String × ℤ))
    (mutual_signals : Option (List (String × List String))) :
    List Pairing × Option String :=
  if active_pool.length < 2 then ([], none)
  else
    let compatibility_scores := extract_scores compatibility_matrix
    let schedule := solve_remaining_roundsZ active_pool compatibility_matrix
      mutual_signals compatibility_scores rounds_remaining.toNat rounds_remaining
      pairing_history pit_stop_counts
    match schedule with
    | [] => ([], none)
    | s :: _ => s

section SanityChecks

example : make_pair_key "b" "a" = "a:b" := by decide

example :
    match_score { id := "a" } { id := "b" } [("a:b", some 50)] [] none none
      = some 50 := by decide

example :
    match_score { id := "a" } { id := "b" } [("a:b", some 50)] ["a:b"] none none
      = none := by decide

example :
    match_score { id := "a", role := "product", role_needed := "engineering" }
      { id := "b", role := "engineering", role_needed := "product" }
      [("a:b", some 50)] [] none none = some 80 := by decide

example :
    match_score { id := "a", climate_areas := ["x", "y"], top_climate_area := "x" }
      { id := "b", climate_areas := ["y", "x"], top_climate_area := "x" }
      [] [] none none = some 40 := by decide

end SanityChecks

/-! ### Order lemmas for the code-point string order -/

theorem char_toNat_inj {c d : Char} (h : c.toNat = d.toNat) : c = d := by
  rw [← Char.ofNat_toNat c, ← Char.ofNat_toNat d, h]

theorem string_data_inj {s t : String} (h : s.data = t.data) : s = t := by
  cases s; cases t; exact congrArg String.mk h

theorem charListLt_trans : ∀ {x y z : List Char},
    charListLt x y = true → charListLt y z = true → charListLt x z = true := by
  intro x
  induction x with
  | nil =>
    intro y z hxy hyz
    cases y with
    | nil => simp [charListLt] at hxy
    | cons b bs =>
      cases z with
      | nil => simp [charListLt] at hyz
      | cons c cs => simp [charListLt]
  | cons a as ih =>
    intro y z hxy hyz
    cases y with
    | nil => simp [charListLt] at hxy
    | cons b bs =>
      cases z with
      | nil => simp [charListLt] at hyz
      | cons c cs =>
        simp only [charListLt] at hxy hyz ⊢
        split_ifs at hxy hyz ⊢ <;>
          first
          | rfl
          | omega
          | exact ih hxy hyz

theorem charListLt_asymm : ∀ {x y : List Char},
    charListLt x y = true → charListLt y x = false := by
  intro x
  induction x with
  | nil =>
    intro y hxy
    cases y with
    | nil => simp [charListLt] at hxy
    | cons b bs => simp [charListLt]
  | cons a as ih =>
    intro y hxy
    cases y with
    | nil => simp [charListLt] at hxy
    | cons b bs =>
      simp only [charListLt] at hxy ⊢
      split_ifs at hxy ⊢ <;>
        first
        | rfl
        | omega
        | exact ih hxy

theorem charListLt_total : ∀ {x y : List Char},
    x ≠ y → charListLt x y = true ∨ charListLt y x = true := by
  intro x
  induction x with
  | nil =>
    intro y hne
    cases y with
    | nil => exact absurd rfl hne
    | cons b bs => left; simp [charListLt]
  | cons a as ih =>
    intro y hne
    cases y with
    | nil => right; simp [charListLt]
    | cons b bs =>
      by_cases h1 : a.toNat < b.toNat
      · left; simp [charListLt, h1]
      · by_cases h2 : b.toNat < a.toNat
        · right; simp [charListLt, h2]
        · have hab : a = b := char_toNat_inj (by omega)
          subst hab
          have hne' : as ≠ bs := fun h => hne (by rw [h])
          rcases ih hne' with h | h
          · left; simp [charListLt, h]
          · right; simp [charListLt, h]

theorem strLt_trans {x y z : String} (h1 : strLt x y = true) (h2 : strLt y z = true) :
    strLt x z = true := charListLt_trans h1 h2

theorem strLt_asymm {x y : String} (h : strLt x y = true) : strLt y x = false :=
  charListLt_asymm h

theorem strLt_total {x y : String} (hne : x ≠ y) :
    strLt x y = true ∨ strLt y x = true :=
  charListLt_total (fun h => hne (string_data_inj h))

theorem strLt_irrefl (x : String) : strLt x x = false := by
  by_cases h : strLt x x = true
  · have := strLt_asymm h; simp [this] at h
  · simpa using h

/-! ### Stable insertion sort: permutation and sortedness -/

theorem insertSorted_perm (le : α → α → Bool) (x : α) :
    ∀ l : List α, List.Perm (insertSorted le x l) (x :: l) := by
  intro l
  induction l with
  | nil => exact List.Perm.refl _
  | cons y ys ih =>
    simp only [insertSorted]
    split_ifs
    · exact List.Perm.refl _
    · exact (List.Perm.cons y ih).trans (List.Perm.swap x y ys)

theorem insertionSort_perm (le : α → α → Bool) :
    ∀ l : List α, List.Perm (insertionSort le l) l := by
  intro l
  induction l with
  | nil => exact List.Perm.refl _
  | cons x xs ih =>
    exact (insertSorted_perm le x (insertionSort le xs)).trans (List.Perm.cons x ih)

theorem pairwise_insertSorted {le : α → α → Bool}
    (htrans : ∀ a b c, le a b = true → le b c = true → le a c = true)
    (htotal : ∀ a b, le a b = true ∨ le b a = true) (x : α) :
    ∀ {l : List α}, l.Pairwise (fun a b => le a b = true) →
      (insertSorted le x l).Pairwise (fun a b => le a b = true) := by
  intro l
  induction l with
  | nil => intro _; simp [insertSorted]
  | cons y ys ih =>
    intro hl
    rw [List.pairwise_cons] at hl
    simp only [insertSorted]
    split_ifs with hxy
    · refine List.Pairwise.cons ?_ (List.Pairwise.cons hl.1 hl.2)
      intro b hb
      rcases hb with _ | hb
      · exact hxy
      · exact htrans _ _ _ hxy (hl.1 _ (by assumption))
    · refine List.Pairwise.cons ?_ (ih hl.2)
      intro b hb
      have hb' := (insertSorted_perm le x ys).mem_iff.mp hb
      rcases List.mem_cons.mp hb' with rfl | hb'
      · rcases htotal y b with h | h
        · exact h
        · simp [h] at hxy
      · exact hl.1 _ hb'

theorem pairwise_insertionSort {le : α → α → Bool}
    (htrans : ∀ a b c, le a b = true → le b c = true → le a c = true)
    (htotal : ∀ a b, le a b = true ∨ le b a = true) :
    ∀ l : List α, (insertionSort le l).Pairwise (fun a b => le a b = true) := by
  intro l
  induction l with
  | nil => simp [insertionSort]
  | cons x xs ih => exact pairwise_insertSorted htrans htotal x ih

theorem insertionSort_head_le {le : α → α → Bool}
    (htrans : ∀ a b c, le a b = true → le b c = true → le a c = true)
    (htotal : ∀ a b, le a b = true ∨ le b a = true)
    {l : List α} {c : α} {rest : List α} (h : insertionSort le l = c :: rest) :
    ∀ a ∈ l, le c a = true := by
  intro a ha
  have hmem : a ∈ c :: rest := by
    rw [← h]
    exact ((insertionSort_perm le l).mem_iff).mpr ha
  rcases hmem with _ | hmem
  · rcases htotal c c with hc | hc <;> exact hc
  · have hp := pairwise_insertionSort htrans htotal l
    rw [h, List.pairwise_cons] at hp
    exact hp.1 _ (by assumption)

/-! ### The matcher: membership and optimality of the chosen candidate -/

theorem wSum_shift [AddCommMonoid W] (wt : Attendee × Attendee → W) :
    ∀ (l : List (Attendee × Attendee)) (a : W),
      l.foldl (fun s ab => s + wt ab) a = a + wSum wt l := by
  intro l
  induction l with
  | nil => intro a; simp [wSum]
  | cons ab c ih =>
    intro a
    simp only [wSum, List.foldl_cons] at ih ⊢
    rw [ih (a + wt ab), ih (0 + wt ab), zero_add, add_assoc]

theorem wSum_cons [AddCommMonoid W] (wt : Attendee × Attendee → W)
    (ab : Attendee × Attendee) (c : List (Attendee × Attendee)) :
    wSum wt (ab :: c) = wt ab + wSum wt c := by
  simp only [wSum, List.foldl_cons, zero_add]
  exact wSum_shift wt c (wt ab)

/-- Candidate `c` is at most as good as `d` in the matcher's order: fewer pairs, or
equally many pairs and no larger total weight. -/
def candLex [AddCommMonoid W] [LinearOrder W] (wt : Attendee × Attendee → W)
    (c d : List (Attendee × Attendee)) : Prop :=
  c.length < d.length ∨ (c.length = d.length ∧ wSum wt c ≤ wSum wt d)

theorem candLex_refl [AddCommMonoid W] [LinearOrder W] (wt : Attendee × Attendee → W)
    (c : List (Attendee × Attendee)) : candLex wt c c :=
  Or.inr ⟨rfl, le_refl _⟩

theorem candLex_trans [AddCommMonoid W] [LinearOrder W] {wt : Attendee × Attendee → W}
    {c d e : List (Attendee × Attendee)} (h1 : candLex wt c d) (h2 : candLex wt d e) :
    candLex wt c e := by
  rcases h1 with h1 | ⟨h1, h1w⟩ <;> rcases h2 with h2 | ⟨h2, h2w⟩
  · exact Or.inl (h1.trans h2)
  · exact Or.inl (h2 ▸ h1)
  · exact Or.inl (h1 ▸ h2)
  · exact Or.inr ⟨h1.trans h2, h1w.trans h2w⟩

theorem betterB_false_candLex [AddCommMonoid W] [LinearOrder W]
    {wt : Attendee × Attendee → W} {c d : List (Attendee × Attendee)}
    (h : betterB wt c d = false) : candLex wt c d := by
  simp only [betterB, Bool.or_eq_false_iff, Bool.and_eq_false_iff,
    decide_eq_false_iff_not, not_lt] at h
  rcases h with ⟨h1, h2 | h2⟩
  · exact Or.inl (lt_of_le_of_ne h1 h2)
  · rcases lt_or_eq_of_le h1 with h | h
    · exact Or.inl h
    · exact Or.inr ⟨h, h2⟩

theorem betterB_true_candLex [AddCommMonoid W] [LinearOrder W]
    {wt : Attendee × Attendee → W} {c d : List (Attendee × Attendee)}
    (h : betterB wt c d = true) : candLex wt d c := by
  simp only [betterB, Bool.or_eq_true, Bool.and_eq_true, decide_eq_true_eq] at h
  rcases h with h | ⟨h1, h2⟩
  · exact Or.inl h
  · exact Or.inr ⟨h1.symm, le_of_lt h2⟩

theorem foldl_better_spec [AddCommMonoid W] [LinearOrder W] (wt : Attendee × Attendee → W) :
    ∀ (cs : List (List (Attendee × Attendee))) (init : List (Attendee × Attendee)),
      (∀ x ∈ cs, candLex wt x (cs.foldl (fun acc c => if betterB wt c acc then c else acc) init)) ∧
        candLex wt init (cs.foldl (fun acc c => if betterB wt c acc then c else acc) init) := by
  intro cs
  induction cs with
  | nil => intro init; exact ⟨by simp, candLex_refl wt init⟩
  | cons c cs ih =>
    intro init
    simp only [List.foldl_cons]
    by_cases hb : betterB wt c init = true
    · rw [if_pos hb]
      refine ⟨?_, candLex_trans (betterB_true_candLex hb) (ih c).2⟩
      intro x hx
      rcases List.mem_cons.mp hx with rfl | hx
      · exact (ih x).2
      · exact (ih c).1 x hx
    · rw [if_neg hb]
      refine ⟨?_, (ih init).2⟩
      intro x hx
      rcases List.mem_cons.mp hx with rfl | hx
      · exact candLex_trans (betterB_false_candLex (by simpa using hb)) (ih init).2
      · exact (ih init).1 x hx

theorem foldl_choice_mem :
    ∀ (cs : List β) (init : β) (p : β → β → Bool),
      cs.foldl (fun acc c => if p c acc then c else acc) init = init ∨
        cs.foldl (fun acc c => if p c acc then c else acc) init ∈ cs := by
  intro cs
  induction cs with
  | nil => intro init p; exact Or.inl rfl
  | cons c cs ih =>
    intro init p
    simp only [List.foldl_cons]
    by_cases hb : p c init = true
    · rw [if_pos hb]
      rcases ih c p with h | h
      · rw [h]; exact Or.inr (List.mem_cons_self c cs)
      · exact Or.inr (List.mem_cons_of_mem c h)
    · rw [if_neg hb]
      rcases ih init p with h | h
      · exact Or.inl h
      · exact Or.inr (List.mem_cons_of_mem c h)

theorem mwm_mem_candidates [AddCommMonoid W] [LinearOrder W]
    (pairs : List (Attendee × Attendee)) (wt : Attendee × Attendee → W) :
    max_weight_matching pairs wt ∈ (pairs.sublists).filter isMatchingB := by
  unfold max_weight_matching
  rcases foldl_choice_mem ((pairs.sublists).filter isMatchingB) [] (betterB wt) with h | h
  · rw [h]
    refine List.mem_filter.mpr ⟨?_, rfl⟩
    exact List.mem_sublists.mpr (List.nil_sublist pairs)
  · exact h

theorem mwm_sublist [AddCommMonoid W] [LinearOrder W]
    (pairs : List (Attendee × Attendee)) (wt : Attendee × Attendee → W) :
    (max_weight_matching pairs wt).Sublist pairs :=
  List.mem_sublists.mp (List.mem_filter.mp (mwm_mem_candidates pairs wt)).1

theorem mwm_isMatching [AddCommMonoid W] [LinearOrder W]
    (pairs : List (Attendee × Attendee)) (wt : Attendee × Attendee → W) :
    isMatchingB (max_weight_matching pairs wt) = true :=
  (List.mem_filter.mp (mwm_mem_candidates pairs wt)).2

theorem mwm_max [AddCommMonoid W] [LinearOrder W]
    (pairs : List (Attendee × Attendee)) (wt : Attendee × Attendee → W) :
    ∀ c ∈ (pairs.sublists).filter isMatchingB,
      candLex wt c (max_weight_matching pairs wt) := by
  intro c hc
  exact (foldl_better_spec wt ((pairs.sublists).filter isMatchingB) []).1 c hc

/-! ### The integer-weight solver agrees with the rational-weight solver -/

theorem edge_weightZ_cast (rr w : ℤ) :
    ((edge_weightZ rr w : ℤ) : ℚ) = 20 * edge_weight rr w := by
  unfold edge_weight edge_weightZ
  rw [mul_max_of_nonneg _ _ (by norm_num : (0 : ℚ) ≤ 20)]
  split_ifs with h
  · push_cast
    congr 1 <;> ring
  · push_cast
    norm_num

theorem wSum_cast (wtZ : Attendee × Attendee → ℤ) (wtQ : Attendee × Attendee → ℚ)
    (h : ∀ ab, ((wtZ ab : ℤ) : ℚ) = 20 * wtQ ab) :
    ∀ c, ((wSum wtZ c : ℤ) : ℚ) = 20 * wSum wtQ c := by
  intro c
  induction c with
  | nil => simp [wSum]
  | cons ab c ih =>
    rw [wSum_cons, wSum_cons]
    push_cast
    rw [h ab, ih]
    ring

theorem betterB_QZ (wtZ : Attendee × Attendee → ℤ) (wtQ : Attendee × Attendee → ℚ)
    (h : ∀ ab, ((wtZ ab : ℤ) : ℚ) = 20 * wtQ ab) (c d : List (Attendee × Attendee)) :
    betterB wtQ c d = betterB wtZ c d := by
  unfold betterB
  congr 1
  congr 1
  rw [decide_eq_decide]
  have hc := wSum_cast wtZ wtQ h c
  have hd := wSum_cast wtZ wtQ h d
  constructor
  · intro hlt
    have hcast : ((wSum wtZ d : ℤ) : ℚ) < ((wSum wtZ c : ℤ) : ℚ) := by
      rw [hc, hd]
      exact (mul_lt_mul_left (by norm_num : (0 : ℚ) < 20)).mpr hlt
    exact_mod_cast hcast
  · intro hlt
    have hcast : ((wSum wtZ d : ℤ) : ℚ) < ((wSum wtZ c : ℤ) : ℚ) := by exact_mod_cast hlt
    rw [hc, hd] at hcast
    exact (mul_lt_mul_left (by norm_num : (0 : ℚ) < 20)).mp hcast

theorem mwm_QZ (pairs : List (Attendee × Attendee))
    (wtZ : Attendee × Attendee → ℤ) (wtQ : Attendee × Attendee → ℚ)
    (h : ∀ ab, ((wtZ ab : ℤ) : ℚ) = 20 * wtQ ab) :
    max_weight_matching pairs wtQ = max_weight_matching pairs wtZ := by
  unfold max_weight_matching
  have hstep : (fun (acc c : List (Attendee × Attendee)) =>
      if betterB wtQ c acc then c else acc) = (fun acc c =>
      if betterB wtZ c acc then c else acc) := by
    funext acc c
    rw [betterB_QZ wtZ wtQ h]
  rw [hstep]

theorem mwm_pair_QZ (pairs : List (Attendee × Attendee)) (rr : ℤ)
    (m : List (String × Option ℤ)) (hist : List String)
    (sig : Option (List (String × List String))) (sc : List (String × ℤ)) :
    max_weight_matching pairs (pair_weight rr m hist sig sc)
      = max_weight_matching pairs (pair_weightZ rr m hist sig sc) := by
  exact mwm_QZ pairs _ _ (fun ab => edge_weightZ_cast rr _)

theorem solve_single_round_eq_Z (pool : List Attendee) (m : List (String × Option ℤ))
    (hist : List String) (rr : ℤ) (counts : List (String × ℤ))
    (sig : Option (List (String × List String))) (sc : List (String × ℤ)) :
    solve_single_round pool m hist rr counts sig sc
      = solve_single_roundZ pool m hist rr counts sig sc := by
  simp only [solve_single_round, solve_single_roundZ, mwm_pair_QZ]

theorem solve_remaining_rounds_eq_Z (pool : List Attendee) (m : List (String × Option ℤ))
    (sig : Option (List (String × List String))) (sc : List (String × ℤ)) :
    ∀ (n : ℕ) (rr : ℤ) (hist : List String) (counts : List (String × ℤ)),
      solve_remaining_rounds pool m sig sc n rr hist counts
        = solve_remaining_roundsZ pool m sig sc n rr hist counts := by
  intro n
  induction n with
  | zero => intro rr hist counts; rfl
  | succ k ih =>
    intro rr hist counts
    simp only [solve_remaining_rounds, solve_remaining_roundsZ, solve_single_round_eq_Z]
    rw [ih]

theorem solve_round_eq_Z (pool : List Attendee) (m : List (String × Option ℤ))
    (hist : List String) (rr : ℤ) (counts : List (String × ℤ))
    (sig : Option (List (String × List String))) :
    solve_round pool m hist rr counts sig = solve_roundZ pool m hist rr counts sig := by
  simp only [solve_round, solve_roundZ, solve_remaining_rounds_eq_Z]

/-! ### Reduction of `solve_round` to the first simulated round -/

theorem solve_round_of_nonpos (pool : List Attendee) (m : List (String × Option ℤ))
    (hist : List String) {rr : ℤ} (counts : List (String × ℤ))
    (sig : Option (List (String × List String))) (hrr : rr ≤ 0) :
    solve_round pool m hist rr counts sig = ([], none) := by
  unfold solve_round
  have h0 : rr.toNat = 0 := Int.toNat_of_nonpos hrr
  rw [h0]
  split_ifs <;> simp [solve_remaining_rounds]

theorem solve_round_pos_eq (pool : List Attendee) (m : List (String × Option ℤ))
    (hist : List String) {rr : ℤ} (counts : List (String × ℤ))
    (sig : Option (List (String × List String))) (h2 : 2 ≤ pool.length) (h1 : 1 ≤ rr) :
    solve_round pool m hist rr counts sig
      = solve_single_round pool m hist rr counts sig (extract_scores m) := by
  unfold solve_round
  rw [if_neg (by omega)]
  obtain ⟨k, hk⟩ : ∃ k, rr.toNat = k + 1 := ⟨rr.toNat - 1, by omega⟩
  rw [hk]
  simp only [solve_remaining_rounds]

/-! ### Structural lemmas about the graph construction and the output -/

theorem mem_allPairs : ∀ {l : List α} {ab : α × α}, ab ∈ allPairs l → ab.1 ∈ l ∧ ab.2 ∈ l := by
  intro l
  induction l with
  | nil => intro ab h; simp [allPairs] at h
  | cons x xs ih =>
    intro ab h
    simp only [allPairs, List.mem_append, List.mem_map] at h
    rcases h with ⟨y, hy, rfl⟩ | h
    · exact ⟨List.mem_cons_self x xs, List.mem_cons_of_mem x hy⟩
    · exact ⟨List.mem_cons_of_mem x (ih h).1, List.mem_cons_of_mem x (ih h).2⟩

theorem dedupById_subset : ∀ {l : List Attendee} {a : Attendee}, a ∈ dedupById l → a ∈ l := by
  intro l
  induction l with
  | nil => intro a h; simp [dedupById] at h
  | cons x xs ih =>
    intro a h
    simp only [dedupById] at h
    split_ifs at h with hmem
    · exact List.mem_cons_of_mem x (ih h)
    · rcases List.mem_cons.mp h with rfl | h
      · exact List.mem_cons_self _ _
      · exact List.mem_cons_of_mem x (ih h)

theorem dedupById_eq_self : ∀ {l : List Attendee}, (l.map Attendee.id).Nodup → dedupById l = l := by
  intro l
  induction l with
  | nil => intro _; rfl
  | cons x xs ih =>
    intro hnd
    rw [List.map_cons, List.nodup_cons] at hnd
    simp only [dedupById, ih hnd.2]
    rw [if_neg hnd.1]

theorem mem_pairings_of_matching {m : List (Attendee × Attendee)}
    {mtx : List (String × Option ℤ)} {hist : List String}
    {sig : Option (List (String × List String))} {sc : List (String × ℤ)} {p : Pairing}
    (hp : p ∈ pairings_of_matching m mtx hist sig sc) :
    ∃ ab ∈ m, p.attendee_a = ab.1.id ∧ p.attendee_b = ab.2.id ∧
      p.composite_score = match_score ab.1 ab.2 mtx hist sig (some sc) := by
  unfold pairings_of_matching at hp
  rcases List.mem_map.mp hp with ⟨ie, hie, rfl⟩
  have hsnd : ie.2 ∈ insertionSort
      (fun x y => pairTupleLE (x.1.id, x.2.id) (y.1.id, y.2.id)) m := by
    have : ie.2 ∈ (insertionSort
        (fun x y => pairTupleLE (x.1.id, x.2.id) (y.1.id, y.2.id)) m).enum.map Prod.snd :=
      List.mem_map.mpr ⟨ie, hie, rfl⟩
    rwa [List.enum_map_snd] at this
  have hm : ie.2 ∈ m := (insertionSort_perm _ m).mem_iff.mp hsnd
  exact ⟨ie.2, hm, rfl, rfl, rfl⟩

theorem pairings_of_matching_tables (m : List (Attendee × Attendee))
    (mtx : List (String × Option ℤ)) (hist : List String)
    (sig : Option (List (String × List String))) (sc : List (String × ℤ)) :
    (pairings_of_matching m mtx hist sig sc).map Pairing.table_number
      = List.range' 1 m.length := by
  unfold pairings_of_matching
  rw [List.map_map]
  have h1 : (Pairing.table_number ∘ fun ie : ℕ × (Attendee × Attendee) =>
      ({ table_number := ie.1 + 1, attendee_a := ie.2.1.id, attendee_b := ie.2.2.id,
         composite_score := match_score ie.2.1 ie.2.2 mtx hist sig (some sc) } : Pairing))
      = (fun ie : ℕ × (Attendee × Attendee) => ie.1 + 1) := rfl
  rw [h1]
  have h2 : (fun ie : ℕ × (Attendee × Attendee) => ie.1 + 1)
      = (fun i => i + 1) ∘ (Prod.fst : ℕ × (Attendee × Attendee) → ℕ) := rfl
  rw [h2, ← List.map_map, List.enum_map_fst, List.range'_eq_map_range]
  have hlen : (insertionSort
      (fun x y => pairTupleLE (x.1.id, x.2.id) (y.1.id, y.2.id)) m).length = m.length :=
    (insertionSort_perm _ m).length_eq
  rw [hlen]
  exact List.map_congr_left (fun i _ => by omega)

theorem pairings_of_matching_length (m : List (Attendee × Attendee))
    (mtx : List (String × Option ℤ)) (hist : List String)
    (sig : Option (List (String × List String))) (sc : List (String × ℤ)) :
    (pairings_of_matching m mtx hist sig sc).length = m.length := by
  unfold pairings_of_matching
  rw [List.length_map, List.enum_length]
  exact (insertionSort_perm _ m).length_eq

theorem mem_graph_pairs {attendees : List Attendee} {mtx : List (String × Option ℤ)}
    {hist : List String} {sig : Option (List (String × List String))}
    {sc : List (String × ℤ)} {ab : Attendee × Attendee}
    (h : ab ∈ graph_pairs attendees mtx hist sig sc) :
    ab ∈ allPairs attendees ∧
      (match_score ab.1 ab.2 mtx hist sig (some sc)).isSome = true := by
  unfold graph_pairs at h
  exact List.mem_filter.mp h

/-- Reduction of `solve_single_round` on an odd pool. -/
theorem solve_single_round_odd {pool : List Attendee} (mtx : List (String × Option ℤ))
    (hist : List String) (rr : ℤ) (counts : List (String × ℤ))
    (sig : Option (List (String × List String))) (sc : List (String × ℤ))
    (hodd : pool.length % 2 = 1) :
    solve_single_round pool mtx hist rr counts sig sc =
      (if (pool.filter (fun a => decide (a.id ≠ choose_pit_stop pool counts))).length < 2
       then ([], some (choose_pit_stop pool counts))
       else (pairings_of_matching
          (max_weight_matching
            (graph_pairs
              (dedupById (pool.filter (fun a => decide (a.id ≠ choose_pit_stop pool counts))))
              mtx hist sig sc)
            (pair_weight rr mtx hist sig sc)) mtx hist sig sc,
        some (choose_pit_stop pool counts))) := by
  simp only [solve_single_round, if_pos hodd]

/-- Reduction of `solve_single_round` on an even pool. -/
theorem solve_single_round_even {pool : List Attendee} (mtx : List (String × Option ℤ))
    (hist : List String) (rr : ℤ) (counts : List (String × ℤ))
    (sig : Option (List (String × List String))) (sc : List (String × ℤ))
    (heven : ¬ pool.length % 2 = 1) :
    solve_single_round pool mtx hist rr counts sig sc =
      (if pool.length < 2 then ([], none)
       else (pairings_of_matching
          (max_weight_matching (graph_pairs (dedupById pool) mtx hist sig sc)
            (pair_weight rr mtx hist sig sc)) mtx hist sig sc,
        none)) := by
  simp only [solve_single_round, if_neg heven]

/-- Every pairing built from the matcher's output over `pool2`'s graph has
its two members in `pool2`, carries the recomputed raw `match_score`, and
that score is not forbidden. -/
theorem mem_pairings_core {pool2 : List Attendee} {mtx : List (String × Option ℤ)}
    {hist : List String} {rr : ℤ} {sig : Option (List (String × List String))}
    {sc : List (String × ℤ)} {p : Pairing}
    (hp : p ∈ pairings_of_matching
      (max_weight_matching (graph_pairs (dedupById pool2) mtx hist sig sc)
        (pair_weight rr mtx hist sig sc)) mtx hist sig sc) :
    ∃ a b : Attendee, a ∈ pool2 ∧ b ∈ pool2 ∧
      p.attendee_a = a.id ∧ p.attendee_b = b.id ∧
      p.composite_score = match_score a b mtx hist sig (some sc) ∧
      (match_score a b mtx hist sig (some sc)).isSome = true := by
  rcases mem_pairings_of_matching hp with ⟨ab, hab, ha, hb, hcs⟩
  have habp : ab ∈ graph_pairs (dedupById pool2) mtx hist sig sc :=
    (mwm_sublist _ _).mem hab
  rcases mem_graph_pairs habp with ⟨hap, hsome⟩
  rcases mem_allPairs hap with ⟨h1, h2⟩
  exact ⟨ab.1, ab.2, dedupById_subset h1, dedupById_subset h2, ha, hb, hcs, hsome⟩

/-- The shape of every pairing `solve_single_round` emits: its two members
are pool attendees that survived the pit-stop filter, its composite score is
the recomputed raw `match_score`, and that score is not forbidden. -/
theorem mem_solve_single_round_pairings
    {pool : List Attendee} {mtx : List (String × Option ℤ)} {hist : List String}
    {rr : ℤ} {counts : List (String × ℤ)}
    {sig : Option (List (String × List String))} {sc : List (String × ℤ)} {p : Pairing}
    (hp : p ∈ (solve_single_round pool mtx hist rr counts sig sc).1) :
    ∃ a b : Attendee, a ∈ pool ∧ b ∈ pool ∧
      p.attendee_a = a.id ∧ p.attendee_b = b.id ∧
      p.composite_score = match_score a b mtx hist sig (some sc) ∧
      (match_score a b mtx hist sig (some sc)).isSome = true ∧
      (∀ pid, (solve_single_round pool mtx hist rr counts sig sc).2 = some pid →
        a.id ≠ pid ∧ b.id ≠ pid) := by
  by_cases hodd : pool.length % 2 = 1
  · rw [solve_single_round_odd mtx hist rr counts sig sc hodd] at hp ⊢
    split_ifs at hp ⊢ with hlen
    · simp at hp
    · rcases mem_pairings_core hp with ⟨a, b, ha2, hb2, haa, hbb, hcs, hsome⟩
      have hane := List.of_mem_filter ha2
      have hbne := List.of_mem_filter hb2
      refine ⟨a, b, List.mem_of_mem_filter ha2, List.mem_of_mem_filter hb2,
        haa, hbb, hcs, hsome, ?_⟩
      intro pid hpid
      simp only [Option.some.injEq] at hpid
      subst hpid
      exact ⟨by simpa using hane, by simpa using hbne⟩
  · rw [solve_single_round_even mtx hist rr counts sig sc hodd] at hp ⊢
    split_ifs at hp ⊢ with hlen
    · simp at hp
    · rcases mem_pairings_core hp with ⟨a, b, ha2, hb2, haa, hbb, hcs, hsome⟩
      exact ⟨a, b, ha2, hb2, haa, hbb, hcs, hsome, by simp⟩

/-- A pairing whose composite score is not forbidden has a pair key outside
the history (first hard constraint of `match_score`). -/
theorem match_score_isSome_not_mem {a b : Attendee} {mtx : List (String × Option ℤ)}
    {hist : List String} {sig : Option (List (String × List String))}
    {sc : Option (List (String × ℤ))}
    (h : (match_score a b mtx hist sig sc).isSome = true) :
    make_pair_key a.id b.id ∉ hist := by
  intro hmem
  unfold match_score at h
  simp only [hmem, if_true] at h
  simp at h

/-- No pairing `solve_round` returns has a pair key that was already in the
history it was called with. -/
theorem solve_round_keys_not_mem {pool : List Attendee} {mtx : List (String × Option ℤ)}
    {hist : List String} {rr : ℤ} {counts : List (String × ℤ)}
    {sig : Option (List (String × List String))} {p : Pairing}
    (hp : p ∈ (solve_round pool mtx hist rr counts sig).1) :
    make_pair_key p.attendee_a p.attendee_b ∉ hist := by
  by_cases h2 : pool.length < 2
  · unfold solve_round at hp
    rw [if_pos h2] at hp
    simp at hp
  · by_cases hrr : rr ≤ 0
    · rw [solve_round_of_nonpos pool mtx hist counts sig hrr] at hp
      simp at hp
    · rw [solve_round_pos_eq pool mtx hist counts sig (by omega) (by omega)] at hp
      rcases mem_solve_single_round_pairings hp with ⟨a, b, _, _, haa, hbb, _, hsome, _⟩
      rw [haa, hbb]
      exact match_score_isSome_not_mem hsome

/-! ### Claims -/

/-- C10: if `rounds_remaining` is 0 (or negative), `solve_round` returns
`([], None)` for every pool — including pools of size ≥ 2 — because the
lookahead loop runs zero iterations and the empty schedule short-circuits to
the empty result. -/
theorem C10_zero_rounds (pool : List Attendee) (mtx : List (String × Option ℤ))
    (hist : List String) (rr : ℤ) (counts : List (String × ℤ))
    (sig : Option (List (String × List String))) (hrr : rr ≤ 0) :
    solve_round pool mtx hist rr counts sig = ([], none) :=
  solve_round_of_nonpos pool mtx hist counts sig hrr

theorem C10_zero_rounds_witness :
    2 ≤ ([{ id := "a" }, { id := "b" }] : List Attendee).length ∧
      solve_round [{ id := "a" }, { id := "b" }] [("a:b", some 50)] [] 0 [] none
        = ([], none) :=
  ⟨by decide,
   C10_zero_rounds [{ id := "a" }, { id := "b" }] [("a:b", some 50)] [] 0 [] none
     (by decide)⟩

/-- C5: `match_score` returns the forbidden sentinel when both attendees
require co-location, both have non-empty locations, and the locations differ
case-insensitively; if either location is empty or either attendee is
remote-open (and the pair is not in the history), the pair stays eligible. -/
theorem C5_colocated_constraint (a b : Attendee) (mtx : List (String × Option ℤ))
    (hist : List String) (sig : Option (List (String × List String)))
    (sc : Option (List (String × ℤ))) :
    (a.arrangement = "colocated" → b.arrangement = "colocated" →
      a.location ≠ "" → b.location ≠ "" → pyLower a.location ≠ pyLower b.location →
      match_score a b mtx hist sig sc = none) ∧
    (make_pair_key a.id b.id ∉ hist →
      (a.location = "" ∨ b.location = "" ∨
        a.arrangement = "remote-open" ∨ b.arrangement = "remote-open") →
      (match_score a b mtx hist sig sc).isSome = true) := by
  constructor
  · intro h1 h2 h3 h4 h5
    unfold match_score
    by_cases hmem : make_pair_key a.id b.id ∈ hist
    · rw [if_pos hmem]
    · rw [if_neg hmem, if_pos ⟨h1, h2, h3, h4, h5⟩]
  · intro hmem hdisj
    unfold match_score
    rw [if_neg hmem]
    have hcond : ¬(a.arrangement = "colocated" ∧ b.arrangement = "colocated" ∧
        a.location ≠ "" ∧ b.location ≠ "" ∧ pyLower a.location ≠ pyLower b.location) := by
      rintro ⟨c1, c2, c3, c4, _⟩
      rcases hdisj with h | h | h | h
      · exact c3 h
      · exact c4 h
      · rw [h] at c1; exact absurd c1 (by decide)
      · rw [h] at c2; exact absurd c2 (by decide)
    rw [if_neg hcond]
    split_ifs <;> rfl

theorem C5_colocated_constraint_witness :
    match_score { id := "a", arrangement := "colocated", location := "NYC" }
        { id := "b", arrangement := "colocated", location := "Boston" }
        [("a:b", some 80)] [] none none = none ∧
      (match_score { id := "a", arrangement := "colocated", location := "NYC" }
        { id := "b", arrangement := "remote-open", location := "Boston" }
        [("a:b", some 80)] [] none none).isSome = true :=
  ⟨(C5_colocated_constraint { id := "a", arrangement := "colocated", location := "NYC" }
      { id := "b", arrangement := "colocated", location := "Boston" }
      [("a:b", some 80)] [] none none).1 rfl rfl (by decide) (by decide) (by decide),
   (C5_colocated_constraint { id := "a", arrangement := "colocated", location := "NYC" }
      { id := "b", arrangement := "remote-open", location := "Boston" }
      [("a:b", some 80)] [] none none).2 (by decide)
      (Or.inr (Or.inr (Or.inr rfl)))⟩

/-- C4: for a pair violating no hard constraint with no compatibility entry
at all, `match_score` is exactly `2 × (roleBonus + laneBonus + areaBonus)`
(no external score, no signal boost), strictly positive whenever any bonus
applies; a pair whose entry exists — even with score 0 — takes the normal
path instead, whose value includes the signal boost term. -/
theorem C4_walkup_fallback (a b : Attendee) (mtx : List (String × Option ℤ))
    (hist : List String) (sig : Option (List (String × List String)))
    (sc : Option (List (String × ℤ)))
    (hmem : make_pair_key a.id b.id ∉ hist)
    (hcoloc : ¬(a.arrangement = "colocated" ∧ b.arrangement = "colocated" ∧
      a.location ≠ "" ∧ b.location ≠ "" ∧ pyLower a.location ≠ pyLower b.location)) :
    (lookupEntry mtx (make_pair_key a.id b.id) = none →
      match_score a b mtx hist sig sc
          = some ((role_bonus a b + lane_bonus a b + climate_bonus a b) * 2) ∧
        (0 < role_bonus a b + lane_bonus a b + climate_bonus a b →
          0 < (role_bonus a b + lane_bonus a b + climate_bonus a b) * 2)) ∧
    (∀ e, lookupEntry mtx (make_pair_key a.id b.id) = some e →
      match_score a b mtx hist sig sc
        = some (llm_score_of mtx (make_pair_key a.id b.id) + role_bonus a b +
            lane_bonus a b + climate_bonus a b + signal_boost_total a b sig sc)) := by
  constructor
  · intro hnone
    have hllm : llm_score_of mtx (make_pair_key a.id b.id) = 0 := by
      unfold llm_score_of
      rw [hnone]
    constructor
    · unfold match_score
      rw [if_neg hmem, if_neg hcoloc, if_pos ⟨hllm, hnone⟩]
    · intro h
      omega
  · intro e he
    unfold match_score
    rw [if_neg hmem, if_neg hcoloc, if_neg ?_]
    rintro ⟨_, h0⟩
    rw [he] at h0
    exact Option.noConfusion h0

theorem C4_walkup_fallback_witness :
    match_score { id := "a", role := "product", role_needed := "engineering" }
        { id := "b", role := "engineering", role_needed := "product" }
        [("x:y", some 5)] [] none none
        = some ((role_bonus { id := "a", role := "product", role_needed := "engineering" }
            { id := "b", role := "engineering", role_needed := "product" }
          + lane_bonus { id := "a", role := "product", role_needed := "engineering" }
            { id := "b", role := "engineering", role_needed := "product" }
          + climate_bonus { id := "a", role := "product", role_needed := "engineering" }
            { id := "b", role := "engineering", role_needed := "product" }) * 2) ∧
      match_score { id := "a", role := "product", role_needed := "engineering" }
        { id := "b", role := "engineering", role_needed := "product" }
        [("a:b", some 0)] [] none none
        = some (llm_score_of [("a:b", some 0)] (make_pair_key "a" "b")
          + role_bonus { id := "a", role := "product", role_needed := "engineering" }
            { id := "b", role := "engineering", role_needed := "product" }
          + lane_bonus { id := "a", role := "product", role_needed := "engineering" }
            { id := "b", role := "engineering", role_needed := "product" }
          + climate_bonus { id := "a", role := "product", role_needed := "engineering" }
            { id := "b", role := "engineering", role_needed := "product" }
          + signal_boost_total { id := "a", role := "product", role_needed := "engineering" }
            { id := "b", role := "engineering", role_needed := "product" } none none) :=
  ⟨((C4_walkup_fallback { id := "a", role := "product", role_needed := "engineering" }
      { id := "b", role := "engineering", role_needed := "product" }
      [("x:y", some 5)] [] none none (by decide) (by decide)).1 (by decide)).1,
   (C4_walkup_fallback { id := "a", role := "product", role_needed := "engineering" }
      { id := "b", role := "engineering", role_needed := "product" }
      [("a:b", some 0)] [] none none (by decide) (by decide)).2 (some 0) (by decide)⟩

/-- The role bonus exactly as the specification's §4.2 words it: "+15 if A's
role differs from B's role AND A's sought-role equals B's role; +15
(independently, additive) if B's sought-role equals A's role" — the second
+15 carries no roles-differ condition. -/
def role_bonus_spec (a b : Attendee) : ℤ :=
  (if a.role ≠ b.role ∧ a.role_needed = b.role then 15 else 0) +
    (if b.role_needed = a.role then 15 else 0)

/-- C3 counterexample: two attendees with the same role, where B seeks A's
role.  The spec's wording predicts a +15 role bonus (total 65); the code
gives none (total 50), because both +15 increments sit under
`if a.role != b.role:`. -/
theorem C3_role_bonus_counterexample :
    match_score { id := "a", role := "engineering", role_needed := "product" }
        { id := "b", role := "engineering", role_needed := "engineering" }
        [("a:b", some 50)] [] none none = some 50 ∧
      llm_score_of [("a:b", some 50)] (make_pair_key "a" "b")
          + role_bonus_spec { id := "a", role := "engineering", role_needed := "product" }
            { id := "b", role := "engineering", role_needed := "engineering" }
          + lane_bonus { id := "a", role := "engineering", role_needed := "product" }
            { id := "b", role := "engineering", role_needed := "engineering" }
          + climate_bonus { id := "a", role := "engineering", role_needed := "product" }
            { id := "b", role := "engineering", role_needed := "engineering" }
          + signal_boost_total { id := "a", role := "engineering", role_needed := "product" }
            { id := "b", role := "engineering", role_needed := "engineering" } none none
        = 65 ∧
      match_score { id := "a", role := "engineering", role_needed := "product" }
        { id := "b", role := "engineering", role_needed := "engineering" }
        [("a:b", some 50)] [] none none ≠ some 65 := by decide

/-- C3 (amended): in `match_score` both +15 role-bonus increments are gated
on A's and B's roles differing — +15 when roles differ and A seeks B's role,
+15 when roles differ and B seeks A's role, and 0 whenever the two roles
coincide, even if either seeks the other's role.  The bonus enters the
composite additively on the non-fallback path (and doubled on the walk-up
fallback path). -/
theorem C3_role_bonus_gated (a b : Attendee) (mtx : List (String × Option ℤ))
    (hist : List String) (sig : Option (List (String × List String)))
    (sc : Option (List (String × ℤ)))
    (hmem : make_pair_key a.id b.id ∉ hist)
    (hcoloc : ¬(a.arrangement = "colocated" ∧ b.arrangement = "colocated" ∧
      a.location ≠ "" ∧ b.location ≠ "" ∧ pyLower a.location ≠ pyLower b.location)) :
    (match_score a b mtx hist sig sc
        = some (llm_score_of mtx (make_pair_key a.id b.id) + role_bonus a b +
            lane_bonus a b + climate_bonus a b + signal_boost_total a b sig sc) ∨
      match_score a b mtx hist sig sc
        = some ((role_bonus a b + lane_bonus a b + climate_bonus a b) * 2)) ∧
    (a.role ≠ b.role → role_bonus a b
        = (if a.role_needed = b.role then 15 else 0) +
            (if b.role_needed = a.role then 15 else 0)) ∧
    (a.role = b.role → role_bonus a b = 0) := by
  refine ⟨?_, ?_, ?_⟩
  · unfold match_score
    rw [if_neg hmem, if_neg hcoloc]
    split_ifs
    · right; rfl
    · left; rfl
  · intro h
    unfold role_bonus
    rw [if_pos h]
  · intro h
    unfold role_bonus
    rw [if_neg (not_not_intro h)]

theorem C3_role_bonus_gated_witness :
    role_bonus { id := "a", role := "engineering", role_needed := "product" }
        { id := "b", role := "engineering", role_needed := "engineering" } = 0 ∧
      match_score { id := "a", role := "engineering", role_needed := "product" }
          { id := "b", role := "engineering", role_needed := "engineering" }
          [("a:b", some 50)] [] none none
        = some (llm_score_of [("a:b", some 50)] (make_pair_key "a" "b")
          + role_bonus { id := "a", role := "engineering", role_needed := "product" }
            { id := "b", role := "engineering", role_needed := "engineering" }
          + lane_bonus { id := "a", role := "engineering", role_needed := "product" }
            { id := "b", role := "engineering", role_needed := "engineering" }
          + climate_bonus { id := "a", role := "engineering", role_needed := "product" }
            { id := "b", role := "engineering", role_needed := "engineering" }
          + signal_boost_total { id := "a", role := "engineering", role_needed := "product" }
            { id := "b", role := "engineering", role_needed := "engineering" } none none) :=
  ⟨(C3_role_bonus_gated { id := "a", role := "engineering", role_needed := "product" }
      { id := "b", role := "engineering", role_needed := "engineering" }
      [("a:b", some 50)] [] none none (by decide) (by decide)).2.2 rfl,
   Or.resolve_right
     ((C3_role_bonus_gated { id := "a", role := "engineering", role_needed := "product" }
        { id := "b", role := "engineering", role_needed := "engineering" }
        [("a:b", some 50)] [] none none (by decide) (by decide)).1)
     (by decide)⟩

/-- C1: no pairing of a single `solve_round` call carries a pair key already
in the `pairing_history` argument; consequently, for two calls where the
caller folded the first call's keys into the second call's history, no pair
key appears in both outputs (and hence never in two different rounds of any
such folded sequence). -/
theorem C1_no_repeated_pair :
    (∀ (pool : List Attendee) (mtx : List (String × Option ℤ)) (hist : List String)
        (rr : ℤ) (counts : List (String × ℤ)) (sig : Option (List (String × List String))),
      ∀ p ∈ (solve_round pool mtx hist rr counts sig).1,
        make_pair_key p.attendee_a p.attendee_b ∉ hist) ∧
    (∀ (pool1 : List Attendee) (mtx1 : List (String × Option ℤ)) (hist1 : List String)
        (rr1 : ℤ) (counts1 : List (String × ℤ)) (sig1 : Option (List (String × List String)))
        (pool2 : List Attendee) (mtx2 : List (String × Option ℤ)) (hist2 : List String)
        (rr2 : ℤ) (counts2 : List (String × ℤ)) (sig2 : Option (List (String × List String))),
      (∀ p ∈ (solve_round pool1 mtx1 hist1 rr1 counts1 sig1).1,
        make_pair_key p.attendee_a p.attendee_b ∈ hist2) →
      ∀ p ∈ (solve_round pool1 mtx1 hist1 rr1 counts1 sig1).1,
        ∀ q ∈ (solve_round pool2 mtx2 hist2 rr2 counts2 sig2).1,
          make_pair_key p.attendee_a p.attendee_b
            ≠ make_pair_key q.attendee_a q.attendee_b) := by
  constructor
  · intro pool mtx hist rr counts sig p hp
    exact solve_round_keys_not_mem hp
  · intro pool1 mtx1 hist1 rr1 counts1 sig1 pool2 mtx2 hist2 rr2 counts2 sig2
      hfold p hp q hq hkey
    have h1 : make_pair_key p.attendee_a p.attendee_b ∈ hist2 := hfold p hp
    have h2 : make_pair_key q.attendee_a q.attendee_b ∉ hist2 := solve_round_keys_not_mem hq
    rw [hkey] at h1
    exact h2 h1

theorem C1_no_repeated_pair_witness :
    make_pair_key "a" "b" ∉ ([] : List String) ∧
      make_pair_key "a" "b" ≠ make_pair_key "a" "d" :=
  ⟨C1_no_repeated_pair.1
      [{ id := "a" }, { id := "b" }, { id := "c" }, { id := "d" }]
      [("a:b", some 100), ("a:c", some 10), ("a:d", some 10),
       ("b:c", some 10), ("b:d", some 10), ("c:d", some 100)] [] 1 [] none
      { table_number := 1, attendee_a := "a", attendee_b := "b", composite_score := some 100 }
      (by rw [solve_round_eq_Z]; decide),
   C1_no_repeated_pair.2
      [{ id := "a" }, { id := "b" }, { id := "c" }, { id := "d" }]
      [("a:b", some 100), ("a:c", some 10), ("a:d", some 10),
       ("b:c", some 10), ("b:d", some 10), ("c:d", some 100)] [] 1 [] none
      [{ id := "a" }, { id := "b" }, { id := "c" }, { id := "d" }]
      [("a:b", some 100), ("a:c", some 10), ("a:d", some 10),
       ("b:c", some 10), ("b:d", some 10), ("c:d", some 100)] ["a:b", "c:d"] 1 [] none
      (by rw [solve_round_eq_Z]; decide)
      { table_number := 1, attendee_a := "a", attendee_b := "b", composite_score := some 100 }
      (by rw [solve_round_eq_Z]; decide)
      { table_number := 1, attendee_a := "a", attendee_b := "d", composite_score := some 10 }
      (by rw [solve_round_eq_Z]; decide)⟩

/-- C9: every returned `Pairing` carries, as `composite_score`, the plain
(unclamped, undiscounted) `match_score` of its two members against the
round's history — for every `rounds_remaining`, including values above 3
where the stored graph weights are discounted by 0.95 and clamped; the
right-hand side below does not depend on `rounds_remaining` at all. -/
theorem C9_composite_is_unclamped_score :
    ∀ (pool : List Attendee) (mtx : List (String × Option ℤ)) (hist : List String)
      (rr : ℤ) (counts : List (String × ℤ)) (sig : Option (List (String × List String))),
      ∀ p ∈ (solve_round pool mtx hist rr counts sig).1,
        ∃ a b : Attendee, a ∈ pool ∧ b ∈ pool ∧
          p.attendee_a = a.id ∧ p.attendee_b = b.id ∧
          p.composite_score = match_score a b mtx hist sig (some (extract_scores mtx)) := by
  intro pool mtx hist rr counts sig p hp
  by_cases h2 : pool.length < 2
  · unfold solve_round at hp
    rw [if_pos h2] at hp
    simp at hp
  · by_cases hrr : rr ≤ 0
    · rw [solve_round_of_nonpos pool mtx hist counts sig hrr] at hp
      simp at hp
    · rw [solve_round_pos_eq pool mtx hist counts sig (by omega) (by omega)] at hp
      rcases mem_solve_single_round_pairings hp with ⟨a, b, ha, hb, haa, hbb, hcs, _, _⟩
      exact ⟨a, b, ha, hb, haa, hbb, hcs⟩

theorem C9_composite_is_unclamped_score_witness :
    ∃ a b : Attendee, a ∈ [({ id := "a" } : Attendee), { id := "b" }] ∧
      b ∈ [({ id := "a" } : Attendee), { id := "b" }] ∧
      (Pairing.mk 1 "a" "b" (some 50)).attendee_a = a.id ∧
      (Pairing.mk 1 "a" "b" (some 50)).attendee_b = b.id ∧
      (Pairing.mk 1 "a" "b" (some 50)).composite_score
        = match_score a b [("a:b", some 50)] [] none
            (some (extract_scores [("a:b", some 50)])) :=
  C9_composite_is_unclamped_score [{ id := "a" }, { id := "b" }] [("a:b", some 50)]
    [] 5 [] none (Pairing.mk 1 "a" "b" (some 50))
    (by rw [solve_round_eq_Z]; decide)

/-! ### C6: the pit-stop selector picks the unique lexicographic minimum -/

theorem candLE_iff (c d : ℤ × Bool × String) :
    candLE c d = true ↔
      (c.1 < d.1 ∨ (c.1 = d.1 ∧ ((c.2.1 = false ∧ d.2.1 = true) ∨
        (c.2.1 = d.2.1 ∧ (strLt c.2.2 d.2.2 = true ∨ c.2.2 = d.2.2))))) := by
  simp [candLE, Bool.and_eq_true, Bool.or_eq_true, decide_eq_true_eq, Bool.not_eq_true']

theorem candLE_trans {x y z : ℤ × Bool × String}
    (h1 : candLE x y = true) (h2 : candLE y z = true) : candLE x z = true := by
  rw [candLE_iff] at h1 h2 ⊢
  obtain ⟨x1, x2, x3⟩ := x
  obtain ⟨y1, y2, y3⟩ := y
  obtain ⟨z1, z2, z3⟩ := z
  simp only at h1 h2 ⊢
  rcases h1 with h1 | ⟨e1, h1⟩
  · rcases h2 with h2 | ⟨e2, h2⟩
    · exact Or.inl (by omega)
    · exact Or.inl (by omega)
  · rcases h2 with h2 | ⟨e2, h2⟩
    · exact Or.inl (by omega)
    · refine Or.inr ⟨by omega, ?_⟩
      rcases h1 with ⟨hf1, ht1⟩ | ⟨eb1, h1⟩
      · rcases h2 with ⟨hf2, ht2⟩ | ⟨eb2, h2⟩
        · rw [ht1] at hf2
          exact absurd hf2 (by simp)
        · left
          exact ⟨hf1, by rw [← eb2, ht1]⟩
      · rcases h2 with ⟨hf2, ht2⟩ | ⟨eb2, h2⟩
        · left
          exact ⟨by rw [eb1, hf2], ht2⟩
        · right
          refine ⟨by rw [eb1, eb2], ?_⟩
          rcases h1 with hs1 | hs1
          · rcases h2 with hs2 | hs2
            · exact Or.inl (strLt_trans hs1 hs2)
            · exact Or.inl (hs2 ▸ hs1)
          · rcases h2 with hs2 | hs2
            · left
              rw [hs1]
              exact hs2
            · exact Or.inr (hs1.trans hs2)

theorem candLE_total (x y : ℤ × Bool × String) :
    candLE x y = true ∨ candLE y x = true := by
  rw [candLE_iff, candLE_iff]
  obtain ⟨x1, x2, x3⟩ := x
  obtain ⟨y1, y2, y3⟩ := y
  simp only
  rcases lt_trichotomy x1 y1 with h | h | h
  · exact Or.inl (Or.inl h)
  · subst h
    cases x2 <;> cases y2
    · by_cases hs : x3 = y3
      · exact Or.inl (Or.inr ⟨rfl, Or.inr ⟨rfl, Or.inr hs⟩⟩)
      · rcases strLt_total hs with hlt | hlt
        · exact Or.inl (Or.inr ⟨rfl, Or.inr ⟨rfl, Or.inl hlt⟩⟩)
        · exact Or.inr (Or.inr ⟨rfl, Or.inr ⟨rfl, Or.inl hlt⟩⟩)
    · exact Or.inl (Or.inr ⟨rfl, Or.inl ⟨rfl, rfl⟩⟩)
    · exact Or.inr (Or.inr ⟨rfl, Or.inl ⟨rfl, rfl⟩⟩)
    · by_cases hs : x3 = y3
      · exact Or.inl (Or.inr ⟨rfl, Or.inr ⟨rfl, Or.inr hs⟩⟩)
      · rcases strLt_total hs with hlt | hlt
        · exact Or.inl (Or.inr ⟨rfl, Or.inr ⟨rfl, Or.inl hlt⟩⟩)
        · exact Or.inr (Or.inr ⟨rfl, Or.inr ⟨rfl, Or.inl hlt⟩⟩)
  · exact Or.inr (Or.inl h)

theorem candLE_antisymm {x y : ℤ × Bool × String}
    (h1 : candLE x y = true) (h2 : candLE y x = true) : x = y := by
  rw [candLE_iff] at h1 h2
  obtain ⟨x1, x2, x3⟩ := x
  obtain ⟨y1, y2, y3⟩ := y
  simp only at h1 h2
  have e1 : x1 = y1 := by
    rcases h1 with h1 | ⟨e, _⟩
    · rcases h2 with h2 | ⟨e2, _⟩ <;> omega
    · exact e
  subst e1
  have h1a : (x2 = false ∧ y2 = true) ∨ (x2 = y2 ∧ (strLt x3 y3 = true ∨ x3 = y3)) := by
    rcases h1 with h1 | ⟨_, h⟩
    · omega
    · exact h
  have h2a : (y2 = false ∧ x2 = true) ∨ (y2 = x2 ∧ (strLt y3 x3 = true ∨ y3 = x3)) := by
    rcases h2 with h2 | ⟨_, h⟩
    · omega
    · exact h
  rcases h1a with ⟨hf1, ht1⟩ | ⟨eb, hs1⟩
  · rcases h2a with ⟨hf2, ht2⟩ | ⟨eb2, hs2⟩
    · rw [hf1] at ht2
      exact absurd ht2 (by simp)
    · rw [ht1] at eb2
      rw [hf1] at eb2
      exact absurd eb2 (by simp)
  · have e3 : x3 = y3 := by
      rcases h2a with ⟨hf2, ht2⟩ | ⟨_, hs2⟩
      · rw [eb, hf2] at ht2
        exact absurd ht2 (by simp)
      · rcases hs1 with hs1 | hs1
        · rcases hs2 with hs2 | hs2
          · have := strLt_asymm hs1
            rw [hs2] at this
            exact absurd this (by simp)
          · exact hs2.symm
        · exact hs1
    rw [eb, e3]

/-- C6: for a non-empty pool and any pit-stop-count map, `choose_pit_stop`
returns the id of a pool member whose ranking tuple
`(timesAlreadyPitStopped, isWalkUp, personId)` is minimal in ascending
lexicographic order — and that minimiser's id is unique: any pool member
whose tuple is minimal has exactly the returned id, so the choice is a
deterministic function of the pool and the counts. -/
theorem C6_pit_stop_selection (pool : List Attendee) (counts : List (String × ℤ))
    (hne : pool ≠ []) :
    (∃ a ∈ pool, a.id = choose_pit_stop pool counts ∧
      ∀ b ∈ pool, candLE (pit_stop_key counts a) (pit_stop_key counts b) = true) ∧
    (∀ a ∈ pool,
      (∀ b ∈ pool, candLE (pit_stop_key counts a) (pit_stop_key counts b) = true) →
      a.id = choose_pit_stop pool counts) := by
  obtain ⟨c, rest, hsort⟩ : ∃ c rest,
      insertionSort candLE (pool.map (pit_stop_key counts)) = c :: rest := by
    cases hs : insertionSort candLE (pool.map (pit_stop_key counts)) with
    | nil =>
        exfalso
        have hlen := (insertionSort_perm candLE (pool.map (pit_stop_key counts))).length_eq
        rw [hs] at hlen
        simp only [List.length_nil, List.length_map] at hlen
        exact hne (List.length_eq_zero.mp hlen.symm)
    | cons c rest => exact ⟨c, rest, rfl⟩
  have hchoose : choose_pit_stop pool counts = c.2.2 := by
    simp only [choose_pit_stop]
    rw [hsort]
  have hmin := insertionSort_head_le
    (fun (x y z : ℤ × Bool × String) (h1 : candLE x y = true) (h2 : candLE y z = true) =>
      candLE_trans h1 h2)
    candLE_total hsort
  have hcmem : c ∈ pool.map (pit_stop_key counts) := by
    have hmem : c ∈ c :: rest := List.mem_cons_self c rest
    rw [← hsort] at hmem
    exact (insertionSort_perm candLE (pool.map (pit_stop_key counts))).mem_iff.mp hmem
  obtain ⟨a0, ha0, hka⟩ := List.mem_map.mp hcmem
  constructor
  · refine ⟨a0, ha0, ?_, ?_⟩
    · rw [hchoose, ← hka]
      rfl
    · intro b hb
      rw [hka]
      exact hmin _ (List.mem_map_of_mem _ hb)
  · intro a ha hminA
    have h1 : candLE (pit_stop_key counts a) (pit_stop_key counts a0) = true := hminA a0 ha0
    have h2 : candLE (pit_stop_key counts a0) (pit_stop_key counts a) = true := by
      rw [hka]
      exact hmin _ (List.mem_map_of_mem _ ha)
    have hkeq := candLE_antisymm h1 h2
    have hid : a.id = a0.id := congrArg (fun t : ℤ × Bool × String => t.2.2) hkeq
    rw [hchoose, ← hka]
    exact hid

theorem C6_pit_stop_selection_witness :
    ({ id := "b" } : Attendee).id
      = choose_pit_stop
          [{ id := "c", source := "walk-up" }, { id := "a" }, { id := "b" }]
          [("a", 1)] :=
  (C6_pit_stop_selection
      [{ id := "c", source := "walk-up" }, { id := "a" }, { id := "b" }]
      [("a", 1)] (by decide)).2 { id := "b" } (by decide) (by decide)

/-! ### C7: table numbering -/

theorem pairTupleLE_trans {x y z : String × String}
    (h1 : pairTupleLE x y = true) (h2 : pairTupleLE y z = true) :
    pairTupleLE x z = true := by
  obtain ⟨x1, x2⟩ := x
  obtain ⟨y1, y2⟩ := y
  obtain ⟨z1, z2⟩ := z
  simp only [pairTupleLE, Bool.or_eq_true, Bool.and_eq_true, decide_eq_true_eq] at h1 h2 ⊢
  rcases h1 with h1 | ⟨e1, h1⟩
  · rcases h2 with h2 | ⟨e2, h2⟩
    · exact Or.inl (strLt_trans h1 h2)
    · exact Or.inl (e2 ▸ h1)
  · rcases h2 with h2 | ⟨e2, h2⟩
    · left
      rw [e1]
      exact h2
    · refine Or.inr ⟨by rw [e1, e2], ?_⟩
      rcases h1 with h1 | h1
      · rcases h2 with h2 | h2
        · exact Or.inl (strLt_trans h1 h2)
        · exact Or.inl (h2 ▸ h1)
      · rcases h2 with h2 | h2
        · left
          rw [h1]
          exact h2
        · exact Or.inr (h1.trans h2)

theorem pairTupleLE_total (x y : String × String) :
    pairTupleLE x y = true ∨ pairTupleLE y x = true := by
  obtain ⟨x1, x2⟩ := x
  obtain ⟨y1, y2⟩ := y
  simp only [pairTupleLE, Bool.or_eq_true, Bool.and_eq_true, decide_eq_true_eq]
  by_cases he : x1 = y1
  · subst he
    by_cases he2 : x2 = y2
    · exact Or.inl (Or.inr ⟨rfl, Or.inr he2⟩)
    · rcases strLt_total he2 with h | h
      · exact Or.inl (Or.inr ⟨rfl, Or.inl h⟩)
      · exact Or.inr (Or.inr ⟨rfl, Or.inl h⟩)
  · rcases strLt_total he with h | h
    · exact Or.inl (Or.inl h)
    · exact Or.inr (Or.inl h)

/-- The unordered pair of a Pairing's members, as the sorted tuple the spec's
§4.4 step 6 says table assignment is ordered by. -/
def sorted_tuple (p : Pairing) : String × String :=
  if strLt p.attendee_b p.attendee_a then (p.attendee_b, p.attendee_a)
  else (p.attendee_a, p.attendee_b)

/-- C7 counterexample: with pool order `[z, a, b, c]` and the unique optimal
matching `{z,a}, {b,c}`, the matcher reports the first pair in insertion
orientation `("z", "a")`, so `sorted(matching)` puts `("b", "c")` first:
table 1 goes to `{b,c}` and table 2 to `{a,z}` even though the sorted tuple
`("a", "z")` precedes `("b", "c")` — the numbering is NOT ascending by the
pair's own sorted tuple and depends on the reported orientation. -/
theorem C7_table_numbering_counterexample :
    (solve_round [{ id := "z" }, { id := "a" }, { id := "b" }, { id := "c" }]
        [("a:z", some 100), ("b:z", some 0), ("c:z", some 0),
         ("a:b", some 0), ("a:c", some 0), ("b:c", some 100)] [] 1 [] none).1.map
        (fun p => (p.table_number, sorted_tuple p))
      = [(1, ("b", "c")), (2, ("a", "z"))] ∧
    pairTupleLE ("a", "z") ("b", "c") = true ∧ ("a", "z") ≠ (("b", "c") : String × String) := by
  refine ⟨?_, by decide, by decide⟩
  rw [solve_round_eq_Z]
  decide

/-- C7 (amended): the pairings returned for a round carry table numbers
`1..k`, sequential with no gaps and each used exactly once, and the
assignment order is ascending — lexicographically — in the `(attendee_a,
attendee_b)` tuples as the matching algorithm reported them.  (The reported
orientation of each pair is not specified by the spec, so the numbering is
not in general a function of the unordered pair set alone; see the
counterexample.) -/
theorem C7_table_numbering :
    ∀ (pool : List Attendee) (mtx : List (String × Option ℤ)) (hist : List String)
      (rr : ℤ) (counts : List (String × ℤ)) (sig : Option (List (String × List String))),
      ((solve_round pool mtx hist rr counts sig).1.map Pairing.table_number
        = List.range' 1 (solve_round pool mtx hist rr counts sig).1.length) ∧
      (solve_round pool mtx hist rr counts sig).1.Pairwise
        (fun p q => pairTupleLE (p.attendee_a, p.attendee_b)
          (q.attendee_a, q.attendee_b) = true) := by
  intro pool mtx hist rr counts sig
  have key : ∀ (matching : List (Attendee × Attendee)) (sc : List (String × ℤ)),
      (pairings_of_matching matching mtx hist sig sc).map Pairing.table_number
          = List.range' 1 (pairings_of_matching matching mtx hist sig sc).length ∧
        (pairings_of_matching matching mtx hist sig sc).Pairwise
          (fun p q => pairTupleLE (p.attendee_a, p.attendee_b)
            (q.attendee_a, q.attendee_b) = true) := by
    intro matching sc
    constructor
    · rw [pairings_of_matching_tables, pairings_of_matching_length]
    · unfold pairings_of_matching
      rw [List.pairwise_map]
      have hsorted := @pairwise_insertionSort (Attendee × Attendee)
        (fun x y : Attendee × Attendee =>
          pairTupleLE (x.1.id, x.2.id) (y.1.id, y.2.id))
        (fun _ _ _ h1 h2 => pairTupleLE_trans h1 h2)
        (fun x y => pairTupleLE_total (x.1.id, x.2.id) (y.1.id, y.2.id)) matching
      have henum : List.Pairwise
          (fun ie je : ℕ × (Attendee × Attendee) =>
            pairTupleLE (ie.2.1.id, ie.2.2.id) (je.2.1.id, je.2.2.id) = true)
          (insertionSort (fun x y : Attendee × Attendee =>
            pairTupleLE (x.1.id, x.2.id) (y.1.id, y.2.id)) matching).enum := by
        have h1 := hsorted
        rw [← List.enum_map_snd (insertionSort (fun x y : Attendee × Attendee =>
          pairTupleLE (x.1.id, x.2.id) (y.1.id, y.2.id)) matching),
          List.pairwise_map] at h1
        exact h1
      exact henum
  by_cases h2 : pool.length < 2
  · unfold solve_round
    rw [if_pos h2]
    exact ⟨rfl, List.Pairwise.nil⟩
  · by_cases hrr : rr ≤ 0
    · rw [solve_round_of_nonpos pool mtx hist counts sig hrr]
      exact ⟨rfl, List.Pairwise.nil⟩
    · rw [solve_round_pos_eq pool mtx hist counts sig (by omega) (by omega)]
      by_cases hodd : pool.length % 2 = 1
      · rw [solve_single_round_odd mtx hist rr counts sig (extract_scores mtx) hodd]
        split_ifs
        · exact ⟨rfl, List.Pairwise.nil⟩
        · exact key _ _
      · rw [solve_single_round_even mtx hist rr counts sig (extract_scores mtx) hodd,
          if_neg h2]
        exact key _ _

/-! ### C2: odd pools, pit stop, and the count of pairings -/

/-- On a non-empty pool, `choose_pit_stop` returns the id of a pool member. -/
theorem choose_pit_stop_mem (pool : List Attendee) (counts : List (String × ℤ))
    (hne : pool ≠ []) : ∃ a ∈ pool, a.id = choose_pit_stop pool counts := by
  obtain ⟨c, rest, hsort⟩ : ∃ c rest,
      insertionSort candLE (pool.map (pit_stop_key counts)) = c :: rest := by
    cases hs : insertionSort candLE (pool.map (pit_stop_key counts)) with
    | nil =>
        exfalso
        have hlen := (insertionSort_perm candLE (pool.map (pit_stop_key counts))).length_eq
        rw [hs] at hlen
        simp only [List.length_nil, List.length_map] at hlen
        exact hne (List.length_eq_zero.mp hlen.symm)
    | cons c rest => exact ⟨c, rest, rfl⟩
  have hchoose : choose_pit_stop pool counts = c.2.2 := by
    simp only [choose_pit_stop]
    rw [hsort]
  have hcmem : c ∈ pool.map (pit_stop_key counts) := by
    have hmem : c ∈ c :: rest := List.mem_cons_self c rest
    rw [← hsort] at hmem
    exact (insertionSort_perm candLE (pool.map (pit_stop_key counts))).mem_iff.mp hmem
  obtain ⟨a0, ha0, hka⟩ := List.mem_map.mp hcmem
  refine ⟨a0, ha0, ?_⟩
  rw [hchoose, ← hka]
  rfl

theorem nodupB_iff : ∀ l : List String, nodupB l = true ↔ l.Nodup := by
  intro l
  induction l with
  | nil => simp [nodupB]
  | cons x xs ih => simp [nodupB, ih]

/-- Removing the one attendee with id `pid` from a distinct-id pool shortens
it by exactly one. -/
theorem filter_ne_length {pool : List Attendee} {pid : String}
    (hnd : (pool.map Attendee.id).Nodup) (hmem : ∃ a ∈ pool, a.id = pid) :
    (pool.filter (fun a => decide (a.id ≠ pid))).length = pool.length - 1 := by
  induction pool with
  | nil =>
      rcases hmem with ⟨a, ha, _⟩
      simp at ha
  | cons x rest ih =>
      rw [List.map_cons, List.nodup_cons] at hnd
      by_cases hx : x.id = pid
      · have hrest : rest.filter (fun a => decide (a.id ≠ pid)) = rest := by
          apply List.filter_eq_self.mpr
          intro a ha
          simp only [decide_eq_true_eq]
          intro he
          exact hnd.1 (by rw [hx, ← he]; exact List.mem_map_of_mem _ ha)
        have hcond : (decide (x.id ≠ pid)) = false := by simp [hx]
        rw [List.filter_cons, hcond]
        rw [if_neg (by simp)]
        rw [hrest]
        simp
      · have hcond : (decide (x.id ≠ pid)) = true := by simp [hx]
        rw [List.filter_cons, hcond, if_pos rfl]
        rcases hmem with ⟨a, ha, haid⟩
        rcases List.mem_cons.mp ha with rfl | ha'
        · exact absurd haid hx
        · have hlenpos : 1 ≤ rest.length := by
            rcases rest with _ | ⟨r, rs⟩
            · simp at ha'
            · simp
          rw [List.length_cons, List.length_cons, ih hnd.2 ⟨a, ha', haid⟩]
          omega

theorem pairEndpoints_length : ∀ c : List (Attendee × Attendee),
    (pairEndpoints c).length = 2 * c.length := by
  intro c
  induction c with
  | nil => rfl
  | cons ab c ih =>
      simp only [pairEndpoints, List.flatMap_cons] at ih ⊢
      simp [ih]
      omega

theorem mem_pairEndpoints {c : List (Attendee × Attendee)} {x : String}
    (hx : x ∈ pairEndpoints c) : ∃ ab ∈ c, x = ab.1.id ∨ x = ab.2.id := by
  unfold pairEndpoints at hx
  rcases List.mem_flatMap.mp hx with ⟨ab, hab, hmem⟩
  rcases List.mem_cons.mp hmem with rfl | hmem
  · exact ⟨ab, hab, Or.inl rfl⟩
  · rcases List.mem_cons.mp hmem with rfl | hmem
    · exact ⟨ab, hab, Or.inr rfl⟩
    · simp at hmem

/-- Greedily pair a list two-by-two in order (a concrete perfect matching of
the complete graph over an even vertex list). -/
def pairUp : List α → List (α × α)
  | [] => []
  | [_] => []
  | x :: y :: rest => (x, y) :: pairUp rest

theorem pairUp_length : ∀ l : List α, (pairUp l).length = l.length / 2 := by
  intro l
  induction l using pairUp.induct with
  | case1 => simp [pairUp]
  | case2 => simp [pairUp]
  | case3 x y rest ih =>
      simp [pairUp, ih]
      omega

theorem pairUp_sublist_allPairs : ∀ l : List α, (pairUp l).Sublist (allPairs l) := by
  intro l
  induction l using pairUp.induct with
  | case1 => exact List.Sublist.refl _
  | case2 => simp [pairUp, allPairs]
  | case3 x y rest ih =>
      show ((x, y) :: pairUp rest).Sublist (allPairs (x :: y :: rest))
      have hshape : allPairs (x :: y :: rest)
          = (x, y) :: ((rest.map (fun z => (x, z))) ++
              (rest.map (fun z => (y, z)) ++ allPairs rest)) := by
        simp [allPairs]
      rw [hshape]
      refine List.Sublist.cons₂ _ ?_
      exact ih.trans ((List.sublist_append_right _ _).trans
        (List.sublist_append_right _ _))

theorem pairUp_pairEndpoints : ∀ l : List Attendee, l.length % 2 = 0 →
    pairEndpoints (pairUp l) = l.map Attendee.id := by
  intro l
  induction l using pairUp.induct with
  | case1 => intro _; simp [pairUp, pairEndpoints]
  | case2 => intro h; simp at h
  | case3 x y rest ih =>
      intro h
      have hrest : rest.length % 2 = 0 := by
        simp only [List.length_cons] at h
        omega
      show pairEndpoints ((x, y) :: pairUp rest) = _
      simp only [pairEndpoints, List.flatMap_cons] at ih ⊢
      rw [ih hrest]
      rfl

theorem allPairs_rel {R : α → α → Prop} : ∀ {l : List α}, l.Pairwise R →
    ∀ ab ∈ allPairs l, R ab.1 ab.2 := by
  intro l
  induction l with
  | nil => intro _ ab hab; simp [allPairs] at hab
  | cons x xs ih =>
      intro hl ab hab
      rw [List.pairwise_cons] at hl
      simp only [allPairs, List.mem_append, List.mem_map] at hab
      rcases hab with ⟨y, hy, rfl⟩ | hab
      · exact hl.1 y hy
      · exact ih hl.2 ab hab

/-- A matching over the pair graph of a distinct-id vertex list cannot touch
more vertices than exist: `2 * |matching| ≤ |vertices|`. -/
theorem matching_card_bound {l : List Attendee} {c : List (Attendee × Attendee)}
    (hnd : (l.map Attendee.id).Nodup) (hsub : c.Sublist (allPairs l))
    (hm : isMatchingB c = true) : 2 * c.length ≤ l.length := by
  have hnd_e : (pairEndpoints c).Nodup := by
    unfold isMatchingB at hm
    exact (nodupB_iff _).mp hm
  have hsubset : ∀ x ∈ pairEndpoints c, x ∈ l.map Attendee.id := by
    intro x hx
    rcases mem_pairEndpoints hx with ⟨ab, habc, hx⟩
    have hab : ab ∈ allPairs l := hsub.mem habc
    rcases mem_allPairs hab with ⟨h1, h2⟩
    rcases hx with rfl | rfl
    · exact List.mem_map_of_mem _ h1
    · exact List.mem_map_of_mem _ h2
  have h1 : (pairEndpoints c).toFinset.card = (pairEndpoints c).length :=
    List.toFinset_card_of_nodup hnd_e
  have h2 : (pairEndpoints c).toFinset ⊆ (l.map Attendee.id).toFinset := by
    intro x hx
    rw [List.mem_toFinset] at hx ⊢
    exact hsubset x hx
  have h3 := Finset.card_le_card h2
  have h4 : (l.map Attendee.id).toFinset.card = (l.map Attendee.id).length :=
    List.toFinset_card_of_nodup hnd
  have h5 := pairEndpoints_length c
  rw [List.length_map] at h4
  omega

/-- C2 counterexample: an odd pool of 3 distinct ids where the two attendees
left after the pit stop are already in the pairing history.  The claim
demands `(3-1)/2 = 1` pairing; the solver returns none (with the pit stop
still chosen), matching the spec's own §4.4 "no valid edges" edge case. -/
theorem C2_odd_pool_counterexample :
    ([{ id := "a" }, { id := "b" }, { id := "c" }] : List Attendee).length % 2 = 1 ∧
    3 ≤ ([{ id := "a" }, { id := "b" }, { id := "c" }] : List Attendee).length ∧
    (([{ id := "a" }, { id := "b" }, { id := "c" }] : List Attendee).map Attendee.id).Nodup ∧
    solve_round [{ id := "a" }, { id := "b" }, { id := "c" }]
        [("a:b", some 50), ("a:c", some 50), ("b:c", some 50)] ["b:c"] 1 [] none
      = ([], some "a") ∧
    (0 : ℕ) ≠ (([{ id := "a" }, { id := "b" }, { id := "c" }] : List Attendee).length - 1) / 2 := by
  refine ⟨by decide, by decide, by decide, ?_, by decide⟩
  rw [solve_round_eq_Z]
  decide

/-- C2 (amended): for every pool of odd size N ≥ 3 with distinct ids, at
least one round remaining, the solve returns exactly one pit-stop id — the
id of a pool member — which appears in none of the round's pairings; and
when additionally no unordered pair of distinct pool members violates a hard
constraint, it returns exactly `(N-1)/2` pairings.  (Without the
no-forbidden-pairs condition the pairing count can be smaller — see the
counterexample — per the spec's own §4.4 edge case.) -/
theorem C2_odd_pool_pit_stop (pool : List Attendee) (mtx : List (String × Option ℤ))
    (hist : List String) (rr : ℤ) (counts : List (String × ℤ))
    (sig : Option (List (String × List String)))
    (hodd : pool.length % 2 = 1) (h3 : 3 ≤ pool.length)
    (hnd : (pool.map Attendee.id).Nodup) (hrr : 1 ≤ rr) :
    ∃ a ∈ pool, (solve_round pool mtx hist rr counts sig).2 = some a.id ∧
      (∀ p ∈ (solve_round pool mtx hist rr counts sig).1,
        p.attendee_a ≠ a.id ∧ p.attendee_b ≠ a.id) ∧
      ((∀ a ∈ pool, ∀ b ∈ pool, a.id ≠ b.id →
          (match_score a b mtx hist sig (some (extract_scores mtx))).isSome = true) →
        (solve_round pool mtx hist rr counts sig).1.length = (pool.length - 1) / 2) := by
  have h2 : 2 ≤ pool.length := by omega
  rw [solve_round_pos_eq pool mtx hist counts sig h2 hrr,
    solve_single_round_odd mtx hist rr counts sig (extract_scores mtx) hodd]
  set pid := choose_pit_stop pool counts with hpid
  obtain ⟨a0, ha0, ha0id⟩ := choose_pit_stop_mem pool counts
    (by intro h; rw [h] at h3; simp at h3)
  set pool2 := pool.filter (fun a => decide (a.id ≠ pid)) with hpool2def
  have hlen2 : pool2.length = pool.length - 1 :=
    filter_ne_length hnd ⟨a0, ha0, by rw [ha0id]⟩
  have hnotlt : ¬ pool2.length < 2 := by omega
  rw [if_neg hnotlt]
  have hnd2 : (pool2.map Attendee.id).Nodup :=
    hnd.sublist ((List.filter_sublist pool).map Attendee.id)
  refine ⟨a0, ha0, ?_, ?_, ?_⟩
  · show some pid = some a0.id
    rw [ha0id]
  · intro p hp
    have hp' : p ∈ pairings_of_matching
        (max_weight_matching (graph_pairs (dedupById pool2) mtx hist sig (extract_scores mtx))
          (pair_weight rr mtx hist sig (extract_scores mtx)))
        mtx hist sig (extract_scores mtx) := hp
    rcases mem_pairings_core hp' with ⟨a, b, ha2, hb2, haa, hbb, _, _⟩
    have hne1 := List.of_mem_filter ha2
    have hne2 := List.of_mem_filter hb2
    constructor
    · rw [haa]
      intro hcontra
      rw [ha0id] at hcontra
      simp only [decide_eq_true_eq] at hne1
      exact hne1 hcontra
    · rw [hbb]
      intro hcontra
      rw [ha0id] at hcontra
      simp only [decide_eq_true_eq] at hne2
      exact hne2 hcontra
  · intro helig
    have hded : dedupById pool2 = pool2 := dedupById_eq_self hnd2
    rw [hded]
    have hsub2 : ∀ x : Attendee, x ∈ pool2 → x ∈ pool := by
      intro x hx
      exact List.mem_of_mem_filter hx
    have hpairs : graph_pairs pool2 mtx hist sig (extract_scores mtx) = allPairs pool2 := by
      unfold graph_pairs
      apply List.filter_eq_self.mpr
      intro ab hab
      have hne : ab.1.id ≠ ab.2.id :=
        allPairs_rel (List.pairwise_map.mp hnd2) ab hab
      rcases mem_allPairs hab with ⟨h1, h2⟩
      exact helig ab.1 (hsub2 _ h1) ab.2 (hsub2 _ h2) hne
    rw [hpairs]
    have heven : pool2.length % 2 = 0 := by omega
    have hcand_match : isMatchingB (pairUp pool2) = true := by
      unfold isMatchingB
      rw [pairUp_pairEndpoints pool2 heven]
      exact (nodupB_iff _).mpr hnd2
    have hcand_mem : pairUp pool2 ∈ ((allPairs pool2).sublists).filter isMatchingB :=
      List.mem_filter.mpr
        ⟨List.mem_sublists.mpr (pairUp_sublist_allPairs pool2), hcand_match⟩
    set wt := pair_weight rr mtx hist sig (extract_scores mtx) with hwt
    have hpick_sub := mwm_sublist (allPairs pool2) wt
    have hpick_match := mwm_isMatching (allPairs pool2) wt
    have hpick_up : 2 * (max_weight_matching (allPairs pool2) wt).length ≤ pool2.length :=
      matching_card_bound hnd2 hpick_sub hpick_match
    have hlex := mwm_max (allPairs pool2) wt (pairUp pool2) hcand_mem
    have hpu_len := pairUp_length pool2
    have hpick_low : pool2.length / 2 ≤ (max_weight_matching (allPairs pool2) wt).length := by
      rcases hlex with h | ⟨h, _⟩
      · rw [hpu_len] at h
        omega
      · rw [hpu_len] at h
        omega
    show (pairings_of_matching (max_weight_matching (allPairs pool2) wt)
        mtx hist sig (extract_scores mtx)).length = (pool.length - 1) / 2
    rw [pairings_of_matching_length]
    omega

theorem C2_odd_pool_pit_stop_witness :
    ∃ a ∈ ([{ id := "a" }, { id := "b" }, { id := "c" }] : List Attendee),
      (solve_round [{ id := "a" }, { id := "b" }, { id := "c" }]
          [("a:b", some 50), ("a:c", some 50), ("b:c", some 50)] [] 1 [] none).2
        = some a.id ∧
      (∀ p ∈ (solve_round [{ id := "a" }, { id := "b" }, { id := "c" }]
          [("a:b", some 50), ("a:c", some 50), ("b:c", some 50)] [] 1 [] none).1,
        p.attendee_a ≠ a.id ∧ p.attendee_b ≠ a.id) ∧
      ((∀ a ∈ ([{ id := "a" }, { id := "b" }, { id := "c" }] : List Attendee),
          ∀ b ∈ ([{ id := "a" }, { id := "b" }, { id := "c" }] : List Attendee),
          a.id ≠ b.id →
          (match_score a b [("a:b", some 50), ("a:c", some 50), ("b:c", some 50)] [] none
            (some (extract_scores
              [("a:b", some 50), ("a:c", some 50), ("b:c", some 50)]))).isSome = true) →
        (solve_round [{ id := "a" }, { id := "b" }, { id := "c" }]
            [("a:b", some 50), ("a:c", some 50), ("b:c", some 50)] [] 1 [] none).1.length
          = (([{ id := "a" }, { id := "b" }, { id := "c" }] : List Attendee).length - 1) / 2) :=
  C2_odd_pool_pit_stop [{ id := "a" }, { id := "b" }, { id := "c" }]
    [("a:b", some 50), ("a:c", some 50), ("b:c", some 50)] [] 1 [] none
    (by decide) (by decide) (by decide) (by decide)

/-! ### C8: the frame condition, over an explicit heap of mutable objects

Python mutates `set` and `dict` objects through references; `deepcopy`
allocates a fresh object.  To state "solve_round never mutates its
caller-owned inputs" faithfully, this section threads an explicit heap of
set-objects and dict-objects through `solve_round`: the caller's history and
counts are heap cells, `deepcopy` (matching.py lines 75-76) allocates fresh
cells, and every `simulated_history.add` / `simulated_pit_stops[...]=` of
the lookahead loop (lines 92-97) writes through the simulated references.
The attendee pool, the compatibility matrix and the mutual-signal map are
only ever read by the engine, which the pure embedding shows by
construction; the heap model proves the two mutated-in-simulation
structures are restored intact. -/

structure Heap where
  sets : List (ℕ × List String)
  dicts : List (ℕ × List (String × ℤ))
  fresh : ℕ
deriving DecidableEq

/-- Read the set object at reference `r` (empty if unallocated). -/
def heapGetSet (h : Heap) (r : ℕ) : List String :=
  match h.sets.find? (fun kv => decide (kv.1 = r)) with
  | some kv => kv.2
  | none => []

/-- Read the dict object at reference `r` (empty if unallocated). -/
def heapGetDict (h : Heap) (r : ℕ) : List (String × ℤ) :=
  match h.dicts.find? (fun kv => decide (kv.1 = r)) with
  | some kv => kv.2
  | none => []

/-- Overwrite the set object at reference `r`. -/
def heapSetSet (h : Heap) (r : ℕ) (v : List String) : Heap :=
  { h with sets := (r, v) :: h.sets }

/-- Overwrite the dict object at reference `r`. -/
def heapSetDict (h : Heap) (r : ℕ) (v : List (String × ℤ)) : Heap :=
  { h with dicts := (r, v) :: h.dicts }

/-- Python `deepcopy` of a set: allocate a fresh set object holding `v`. -/
def allocSet (h : Heap) (v : List String) : ℕ × Heap :=
  (h.fresh, { sets := (h.fresh, v) :: h.sets, dicts := h.dicts, fresh := h.fresh + 1 })

/-- Python `deepcopy` of a dict: allocate a fresh dict object holding `v`. -/
def allocDict (h : Heap) (v : List (String × ℤ)) : ℕ × Heap :=
  (h.fresh, { sets := h.sets, dicts := (h.fresh, v) :: h.dicts, fresh := h.fresh + 1 })

/-- The lookahead loop of `_solve_remaining_rounds`, reading and mutating
the simulated history and counts through heap references `rh` and `rc`:
line 94's `simulated_history.add(pair_key)` per pairing and line 97's
`simulated_pit_stops[pit_stop_id] = ... + 1`. -/
def solve_remaining_rounds_heap (active_pool : List Attendee)
    (compatibility_matrix : List (String × Option ℤ))
    (mutual_signals : Option (List (String × List String)))
    (compatibility_scores : List (String × ℤ)) :
    ℕ → ℤ → Heap → ℕ → ℕ → List (List Pairing × Option String) × Heap
  | 0, _, h, _, _ => ([], h)
  | n + 1, rr, h, rh, rc =>
      let result := solve_single_round active_pool compatibility_matrix
        (heapGetSet h rh) rr (heapGetDict h rc) mutual_signals compatibility_scores
      let h1 := result.1.foldl (fun hh p =>
        heapSetSet hh rh (make_pair_key p.attendee_a p.attendee_b :: heapGetSet hh rh)) h
      let h2 := match result.2 with
        | some pid =>
            if pid ≠ "" then
              heapSetDict h1 rc
                ((pid, dictGet (heapGetDict h1 rc) pid 0 + 1) :: heapGetDict h1 rc)
            else h1
        | none => h1
      let rest := solve_remaining_rounds_heap active_pool compatibility_matrix
        mutual_signals compatibility_scores n (rr - 1) h2 rh rc
      (result :: rest.1, rest.2)

/-- Model of `solve_round` with the caller's `pairing_history` and `pit_stop_counts`
living on the heap at `histRef` and `countsRef`: lines 75-76 deepcopy them
into fresh cells and the loop mutates only those copies. -/
def solve_round_heap (active_pool : List Attendee)
    (compatibility_matrix : List (String × Option ℤ)) (rounds_remaining : ℤ)
    (mutual_signals : Option (List (String × List String)))
    (h : Heap) (histRef countsRef : ℕ) : (List Pairing × Option String) × Heap :=
  if active_pool.length < 2 then (([], none), h)
  else
    let compatibility_scores := extract_scores compatibility_matrix
    let alloc1 := allocSet h (heapGetSet h histRef)
    let alloc2 := allocDict alloc1.2 (heapGetDict alloc1.2 countsRef)
    let res := solve_remaining_rounds_heap active_pool compatibility_matrix
      mutual_signals compatibility_scores rounds_remaining.toNat rounds_remaining
      alloc2.2 alloc1.1 alloc2.1
    match res.1 with
    | [] => (([], none), res.2)
    | s :: _ => (s, res.2)

theorem heapGetSet_set_eq (h : Heap) (r : ℕ) (v : List String) :
    heapGetSet (heapSetSet h r v) r = v := by
  simp [heapGetSet, heapSetSet]

theorem heapGetSet_set_ne (h : Heap) (r r' : ℕ) (v : List String) (hne : r' ≠ r) :
    heapGetSet (heapSetSet h r v) r' = heapGetSet h r' := by
  simp [heapGetSet, heapSetSet, List.find?_cons, Ne.symm hne]

theorem heapGetDict_setSet (h : Heap) (r r' : ℕ) (v : List String) :
    heapGetDict (heapSetSet h r v) r' = heapGetDict h r' := rfl

theorem heapGetDict_set_eq (h : Heap) (r : ℕ) (v : List (String × ℤ)) :
    heapGetDict (heapSetDict h r v) r = v := by
  simp [heapGetDict, heapSetDict]

theorem heapGetDict_set_ne (h : Heap) (r r' : ℕ) (v : List (String × ℤ)) (hne : r' ≠ r) :
    heapGetDict (heapSetDict h r v) r' = heapGetDict h r' := by
  simp [heapGetDict, heapSetDict, List.find?_cons, Ne.symm hne]

theorem heapGetSet_setDict (h : Heap) (r r' : ℕ) (v : List (String × ℤ)) :
    heapGetSet (heapSetDict h r v) r' = heapGetSet h r' := rfl

theorem heapGetSet_allocSet_fresh (h : Heap) (v : List String) :
    heapGetSet (allocSet h v).2 (allocSet h v).1 = v := by
  simp [heapGetSet, allocSet]

theorem heapGetSet_allocSet_ne (h : Heap) (v : List String) (r : ℕ) (hne : r ≠ h.fresh) :
    heapGetSet (allocSet h v).2 r = heapGetSet h r := by
  simp [heapGetSet, allocSet, List.find?_cons, Ne.symm hne]

theorem heapGetDict_allocSet (h : Heap) (v : List String) (r : ℕ) :
    heapGetDict (allocSet h v).2 r = heapGetDict h r := rfl

theorem heapGetDict_allocDict_fresh (h : Heap) (v : List (String × ℤ)) :
    heapGetDict (allocDict h v).2 (allocDict h v).1 = v := by
  simp [heapGetDict, allocDict]

theorem heapGetDict_allocDict_ne (h : Heap) (v : List (String × ℤ)) (r : ℕ)
    (hne : r ≠ h.fresh) :
    heapGetDict (allocDict h v).2 r = heapGetDict h r := by
  simp [heapGetDict, allocDict, List.find?_cons, Ne.symm hne]

theorem heapGetSet_allocDict (h : Heap) (v : List (String × ℤ)) (r : ℕ) :
    heapGetSet (allocDict h v).2 r = heapGetSet h r := rfl

theorem heapGetDict_congr {h1 h2 : Heap} (he : h1.dicts = h2.dicts) (r : ℕ) :
    heapGetDict h1 r = heapGetDict h2 r := by
  unfold heapGetDict
  rw [he]

theorem foldl_setAdd_getSet_ne (l : List Pairing) (rh r : ℕ) (hne : r ≠ rh) :
    ∀ h : Heap, heapGetSet (l.foldl (fun hh p =>
      heapSetSet hh rh (make_pair_key p.attendee_a p.attendee_b :: heapGetSet hh rh)) h) r
      = heapGetSet h r := by
  induction l with
  | nil => intro h; rfl
  | cons p ps ih =>
      intro h
      simp only [List.foldl_cons]
      rw [ih]
      exact heapGetSet_set_ne _ _ _ _ hne

theorem foldl_setAdd_getSet (l : List Pairing) (rh : ℕ) :
    ∀ h : Heap, heapGetSet (l.foldl (fun hh p =>
      heapSetSet hh rh (make_pair_key p.attendee_a p.attendee_b :: heapGetSet hh rh)) h) rh
      = update_history (heapGetSet h rh) l := by
  induction l with
  | nil => intro h; rfl
  | cons p ps ih =>
      intro h
      simp only [List.foldl_cons]
      rw [ih, heapGetSet_set_eq]
      rfl

theorem foldl_setAdd_dicts (l : List Pairing) (rh : ℕ) :
    ∀ h : Heap, (l.foldl (fun hh p =>
      heapSetSet hh rh (make_pair_key p.attendee_a p.attendee_b :: heapGetSet hh rh)) h).dicts
      = h.dicts := by
  induction l with
  | nil => intro h; rfl
  | cons p ps ih =>
      intro h
      simp only [List.foldl_cons]
      rw [ih]
      rfl

/-- The heap-threaded lookahead loop computes exactly the pure schedule from
the referenced contents, and writes only through the two simulated
references. -/
theorem solve_remaining_rounds_heap_spec (pool : List Attendee)
    (mtx : List (String × Option ℤ)) (sig : Option (List (String × List String)))
    (sc : List (String × ℤ)) :
    ∀ (n : ℕ) (rr : ℤ) (h : Heap) (rh rc : ℕ),
      (solve_remaining_rounds_heap pool mtx sig sc n rr h rh rc).1
        = solve_remaining_rounds pool mtx sig sc n rr (heapGetSet h rh) (heapGetDict h rc) ∧
      (∀ r, r ≠ rh →
        heapGetSet (solve_remaining_rounds_heap pool mtx sig sc n rr h rh rc).2 r
          = heapGetSet h r) ∧
      (∀ r, r ≠ rc →
        heapGetDict (solve_remaining_rounds_heap pool mtx sig sc n rr h rh rc).2 r
          = heapGetDict h r) := by
  intro n
  induction n with
  | zero =>
      intro rr h rh rc
      exact ⟨rfl, fun r _ => rfl, fun r _ => rfl⟩
  | succ k ih =>
      intro rr h rh rc
      set result := solve_single_round pool mtx (heapGetSet h rh) rr (heapGetDict h rc) sig sc
        with hresult
      set h1 := result.1.foldl (fun hh p =>
        heapSetSet hh rh (make_pair_key p.attendee_a p.attendee_b :: heapGetSet hh rh)) h
        with hh1
      set h2 := (match result.2 with
        | some pid =>
            if pid ≠ "" then
              heapSetDict h1 rc
                ((pid, dictGet (heapGetDict h1 rc) pid 0 + 1) :: heapGetDict h1 rc)
            else h1
        | none => h1) with hh2
  -- facts about one simulated step
      have e_set_rh : heapGetSet h1 rh = update_history (heapGetSet h rh) result.1 :=
        foldl_setAdd_getSet result.1 rh h
      have e_set_ne : ∀ r, r ≠ rh → heapGetSet h1 r = heapGetSet h r := fun r hr =>
        foldl_setAdd_getSet_ne result.1 rh r hr h
      have e_dict_h1 : ∀ r, heapGetDict h1 r = heapGetDict h r :=
        heapGetDict_congr (foldl_setAdd_dicts result.1 rh h)
      have e_set_h2 : ∀ r, heapGetSet h2 r = heapGetSet h1 r := by
        intro r
        rw [hh2]
        cases hp : result.2 with
        | none => rfl
        | some pid =>
            dsimp only
            by_cases hpe : pid ≠ ""
            · rw [if_pos hpe]
              exact heapGetSet_setDict h1 rc r _
            · rw [if_neg hpe]
      have e_dict_rc : heapGetDict h2 rc = update_counts (heapGetDict h rc) result.2 := by
        rw [hh2]
        cases hp : result.2 with
        | none => simp [update_counts, e_dict_h1 rc]
        | some pid =>
            unfold update_counts
            dsimp only
            by_cases hpe : pid ≠ ""
            · rw [if_pos hpe, if_pos hpe, heapGetDict_set_eq, e_dict_h1 rc]
            · rw [if_neg hpe, if_neg hpe]
              exact e_dict_h1 rc
      have e_dict_ne : ∀ r, r ≠ rc → heapGetDict h2 r = heapGetDict h r := by
        intro r hr
        rw [hh2]
        cases hp : result.2 with
        | none => exact e_dict_h1 r
        | some pid =>
            dsimp only
            by_cases hpe : pid ≠ ""
            · rw [if_pos hpe, heapGetDict_set_ne _ _ _ _ hr]
              exact e_dict_h1 r
            · rw [if_neg hpe]
              exact e_dict_h1 r
      obtain ⟨ihq, ihs, ihd⟩ := ih (rr - 1) h2 rh rc
      refine ⟨?_, ?_, ?_⟩
      · show result :: (solve_remaining_rounds_heap pool mtx sig sc k (rr - 1) h2 rh rc).1
          = solve_remaining_rounds pool mtx sig sc (k + 1) rr (heapGetSet h rh) (heapGetDict h rc)
        rw [ihq]
        show result :: solve_remaining_rounds pool mtx sig sc k (rr - 1)
            (heapGetSet h2 rh) (heapGetDict h2 rc)
          = result :: solve_remaining_rounds pool mtx sig sc k (rr - 1)
            (update_history (heapGetSet h rh) result.1)
            (update_counts (heapGetDict h rc) result.2)
        rw [e_set_h2, e_set_rh, e_dict_rc]
      · intro r hr
        show heapGetSet (solve_remaining_rounds_heap pool mtx sig sc k (rr - 1) h2 rh rc).2 r
          = heapGetSet h r
        rw [ihs r hr, e_set_h2, e_set_ne r hr]
      · intro r hr
        show heapGetDict (solve_remaining_rounds_heap pool mtx sig sc k (rr - 1) h2 rh rc).2 r
          = heapGetDict h r
        rw [ihd r hr, e_dict_ne r hr]

/-- C8: `solve_round` never mutates its caller-owned inputs.  With the
caller's `pairing_history` set and `pit_stop_counts` dict as live heap
objects, a call leaves both objects exactly as they were — the lookahead
simulation folds results only into the fresh `deepcopy` cells — and the
returned value is the pure function of the input contents.  (The pool, the
compatibility matrix and the mutual-signals map are read-only values in the
embedding: no code path of the engine constructs a modified version of
them.) -/
theorem C8_frame_condition (pool : List Attendee) (mtx : List (String × Option ℤ))
    (rr : ℤ) (sig : Option (List (String × List String))) (h : Heap)
    (histRef countsRef : ℕ) (hh : histRef < h.fresh) (hc : countsRef < h.fresh) :
    (solve_round_heap pool mtx rr sig h histRef countsRef).1
        = solve_round pool mtx (heapGetSet h histRef) rr (heapGetDict h countsRef) sig ∧
      heapGetSet (solve_round_heap pool mtx rr sig h histRef countsRef).2 histRef
        = heapGetSet h histRef ∧
      heapGetDict (solve_round_heap pool mtx rr sig h histRef countsRef).2 countsRef
        = heapGetDict h countsRef := by
  by_cases h2 : pool.length < 2
  · unfold solve_round_heap solve_round
    rw [if_pos h2, if_pos h2]
    exact ⟨rfl, rfl, rfl⟩
  · have hne_set : histRef ≠ h.fresh := by omega
    have hne_dict : countsRef ≠ (allocSet h (heapGetSet h histRef)).2.fresh := by
      show countsRef ≠ h.fresh + 1
      omega
    obtain ⟨sq, ss, sd⟩ := solve_remaining_rounds_heap_spec pool mtx sig
      (extract_scores mtx) rr.toNat rr
      (allocDict (allocSet h (heapGetSet h histRef)).2
        (heapGetDict (allocSet h (heapGetSet h histRef)).2 countsRef)).2
      (allocSet h (heapGetSet h histRef)).1
      (allocDict (allocSet h (heapGetSet h histRef)).2
        (heapGetDict (allocSet h (heapGetSet h histRef)).2 countsRef)).1
    have hg1 : heapGetSet
        (allocDict (allocSet h (heapGetSet h histRef)).2
          (heapGetDict (allocSet h (heapGetSet h histRef)).2 countsRef)).2
        (allocSet h (heapGetSet h histRef)).1 = heapGetSet h histRef := by
      rw [heapGetSet_allocDict, heapGetSet_allocSet_fresh]
    have hg2 : heapGetDict
        (allocDict (allocSet h (heapGetSet h histRef)).2
          (heapGetDict (allocSet h (heapGetSet h histRef)).2 countsRef)).2
        (allocDict (allocSet h (heapGetSet h histRef)).2
          (heapGetDict (allocSet h (heapGetSet h histRef)).2 countsRef)).1
        = heapGetDict h countsRef := by
      rw [heapGetDict_allocDict_fresh]
      exact heapGetDict_allocSet h _ countsRef
    have hscrut : (solve_remaining_rounds_heap pool mtx sig (extract_scores mtx)
        rr.toNat rr
        (allocDict (allocSet h (heapGetSet h histRef)).2
          (heapGetDict (allocSet h (heapGetSet h histRef)).2 countsRef)).2
        (allocSet h (heapGetSet h histRef)).1
        (allocDict (allocSet h (heapGetSet h histRef)).2
          (heapGetDict (allocSet h (heapGetSet h histRef)).2 countsRef)).1).1
        = solve_remaining_rounds pool mtx sig (extract_scores mtx) rr.toNat rr
          (heapGetSet h histRef) (heapGetDict h countsRef) := by
      rw [sq, hg1, hg2]
    have hframe_set : heapGetSet (solve_remaining_rounds_heap pool mtx sig
        (extract_scores mtx) rr.toNat rr
        (allocDict (allocSet h (heapGetSet h histRef)).2
          (heapGetDict (allocSet h (heapGetSet h histRef)).2 countsRef)).2
        (allocSet h (heapGetSet h histRef)).1
        (allocDict (allocSet h (heapGetSet h histRef)).2
          (heapGetDict (allocSet h (heapGetSet h histRef)).2 countsRef)).1).2 histRef
        = heapGetSet h histRef := by
      rw [ss histRef hne_set, heapGetSet_allocDict,
        heapGetSet_allocSet_ne h _ histRef hne_set]
    have hframe_dict : heapGetDict (solve_remaining_rounds_heap pool mtx sig
        (extract_scores mtx) rr.toNat rr
        (allocDict (allocSet h (heapGetSet h histRef)).2
          (heapGetDict (allocSet h (heapGetSet h histRef)).2 countsRef)).2
        (allocSet h (heapGetSet h histRef)).1
        (allocDict (allocSet h (heapGetSet h histRef)).2
          (heapGetDict (allocSet h (heapGetSet h histRef)).2 countsRef)).1).2 countsRef
        = heapGetDict h countsRef := by
      rw [sd countsRef hne_dict, heapGetDict_allocDict_ne _ _ _ hne_dict]
      exact heapGetDict_allocSet h _ countsRef
    unfold solve_round_heap solve_round
    rw [if_neg h2, if_neg h2]
    dsimp only
    rw [hscrut]
    cases hcase : solve_remaining_rounds pool mtx sig (extract_scores mtx) rr.toNat rr
        (heapGetSet h histRef) (heapGetDict h countsRef) with
    | nil => exact ⟨rfl, hframe_set, hframe_dict⟩
    | cons s rest => exact ⟨rfl, hframe_set, hframe_dict⟩

theorem C8_frame_condition_witness :
    (solve_round_heap [{ id := "a" }, { id := "b" }] [("a:b", some 50)] 1 none
        ⟨[(0, [])], [(1, [])], 2⟩ 0 1).1
        = solve_round [{ id := "a" }, { id := "b" }] [("a:b", some 50)]
            (heapGetSet ⟨[(0, [])], [(1, [])], 2⟩ 0) 1
            (heapGetDict ⟨[(0, [])], [(1, [])], 2⟩ 1) none ∧
      heapGetSet (solve_round_heap [{ id := "a" }, { id := "b" }] [("a:b", some 50)]
          1 none ⟨[(0, [])], [(1, [])], 2⟩ 0 1).2 0
        = heapGetSet ⟨[(0, [])], [(1, [])], 2⟩ 0 ∧
      heapGetDict (solve_round_heap [{ id := "a" }, { id := "b" }] [("a:b", some 50)]
          1 none ⟨[(0, [])], [(1, [])], 2⟩ 0 1).2 1
        = heapGetDict ⟨[(0, [])], [(1, [])], 2⟩ 1 :=
  C8_frame_condition [{ id := "a" }, { id := "b" }] [("a:b", some 50)] 1 none
    ⟨[(0, [])], [(1, [])], 2⟩ 0 1 (by decide) (by decide)

section SolverChecks

example :
    solve_roundZ [{ id := "a" }, { id := "b" }] [("a:b", some 50)] [] 5 [] none
      = ([{ table_number := 1, attendee_a := "a", attendee_b := "b",
            composite_score := some 50 }], none) := by decide

example :
    solve_roundZ [{ id := "a" }, { id := "b" }, { id := "c" }, { id := "d" }]
      [("a:b", some 100), ("a:c", some 10), ("a:d", some 10),
       ("b:c", some 10), ("b:d", some 10), ("c:d", some 100)] ["a:b", "c:d"] 1 [] none
      = ([{ table_number := 1, attendee_a := "a", attendee_b := "d",
            composite_score := some 10 },
          { table_number := 2, attendee_a := "b", attendee_b := "c",
            composite_score := some 10 }], none) := by decide

example :
    solve_roundZ [{ id := "a" }, { id := "b" }] [("a:b", some 50)] [] 1 [] none
      = ([{ table_number := 1, attendee_a := "a", attendee_b := "b",
            composite_score := some 50 }], none) := by decide

example :
    solve_roundZ [{ id := "a" }, { id := "b" }, { id := "c" }]
      [("a:b", some 50), ("a:c", some 40), ("b:c", some 90)] [] 1 [] none
      = ([{ table_number := 1, attendee_a := "b", attendee_b := "c",
            composite_score := some 90 }], some "a") := by decide

example :
    (solve_roundZ [{ id := "a" }, { id := "b" }, { id := "c" }, { id := "d" }]
      [("a:b", some 50), ("a:c", some 40), ("a:d", some 10),
       ("b:c", some 90), ("b:d", some 20), ("c:d", some 30)] [] 5 [] none).1.map
        (fun p => (p.table_number, p.attendee_a, p.attendee_b))
      = [(1, "a", "d"), (2, "b", "c")] := by decide

end SolverChecks
